import Mathlib

/-!
Shallow embedding of the HF-Org-Locations-Geocoder repository
(`org_geocoder.py`, `cwa_alert_lookup.py`) and proofs about the
claims of its specification.

Strings are modelled as `List Char`.  Python's `re.sub` (global, leftmost,
non-overlapping substitution) is modelled by `subAll`; each concrete regular
expression of the source is compiled by hand into a deterministic matcher
(the patterns involved have no essential backtracking, see the comments on
each matcher).  Python whitespace (`\s`), digits (`\d`) and case folding are
modelled on the ASCII range, which is the alphabet the source manipulates.
-/

namespace Geo

abbrev Str := List Char

/-- Python `\s` (ASCII range): space, tab, newline, carriage return,
vertical tab, form feed. -/
def pws (c : Char) : Bool :=
  c = ' ' || c = '\t' || c = '\n' || c = '\r' || c = '\x0b' || c = '\x0c'

/-- Python `\d` (ASCII range). -/
def isDigitA (c : Char) : Bool := '0' ≤ c && c ≤ '9'

/-- Case folding of a single character (ASCII, as used by `re.IGNORECASE`,
`str.lower` and `str.upper` on the data the source handles). -/
def lowC (c : Char) : Char := c.toLower

/-- Length of the maximal whitespace prefix (`\s*` / `\s+`). -/
def wsRun (s : Str) : Nat := (s.takeWhile pws).length

/-- Length of the maximal digit prefix (`\d+`). -/
def digitRun (s : Str) : Nat := (s.takeWhile isDigitA).length

/-- The prefix of `s` up to (excluding) the first comma. -/
def frag (s : Str) : Str := s.takeWhile (fun c => !(c = ','))

/-- Length of the maximal comma-free prefix (greedy `[^,]+` extent). -/
def nonCommaRun (s : Str) : Nat := (frag s).length

/-- Strip a case-insensitive literal keyword (given in lower case) from the
front of `s`, returning the rest. -/
def stripCI : Str → Str → Option Str
  | [], s => some s
  | _ :: _, [] => none
  | k :: ks, c :: cs => if lowC c = k then stripCI ks cs else none

/-- Greedy tail `\s+[^,]+` of the unit-designator patterns.  With Python's
backtracking: the whitespace run `u` is consumed greedily; if no non-comma
character follows, `\s+` gives one character back to `[^,]+`, which needs
`u ≥ 2`.  Returns the number of characters consumed. -/
def suffixSpec (s : Str) : Option Nat :=
  let u := wsRun s
  if u = 0 then none
  else
    let t := nonCommaRun (s.drop u)
    if 0 < t then some (u + t)
    else if 2 ≤ u then some u else none

/-- The `\.?\s+[^,]+` tail after the keyword: the optional `\.?` is taken
exactly when a dot is present and `\s+` can match after it (otherwise
backtracking drops the dot and `\s+` fails on the dot itself).  Returns
the number of characters consumed. -/
def dotSuffix (dot : Bool) (rest : Str) : Option Nat :=
  match dot, rest with
  | true, '.' :: r2 =>
    match suffixSpec r2 with
    | some m => some (1 + m)
    | none => none
  | _, _ => suffixSpec rest

/-- Matcher for `,\s*KW\.?\s+[^,]+` (the optional dot only when `dot`),
applied to the text following the initial comma; returns the number of
characters consumed after that comma. -/
def matchKwTail (kw : Str) (dot : Bool) (s : Str) : Option Nat :=
  let w := wsRun s
  match stripCI kw (s.drop w) with
  | none => none
  | some rest =>
    match dotSuffix dot rest with
    | some m => some (w + kw.length + m)
    | none => none

/-- `st|nd|rd|th`, case-insensitively. -/
def stripOrd : Str → Option Str
  | a :: b :: rest =>
    if (lowC a = 's' && lowC b = 't') || (lowC a = 'n' && lowC b = 'd') ||
       (lowC a = 'r' && lowC b = 'd') || (lowC a = 't' && lowC b = 'h')
    then some rest else none
  | _ => none

/-- Matcher for `,\s*\d+(?:st|nd|rd|th)\s+Floor` applied to the text after
the initial comma.  `\d+` is greedy but the ordinal letters are not digits,
so no backtracking arises. -/
def matchFloorOrdTail (s : Str) : Option Nat :=
  let w := wsRun s
  let s1 := s.drop w
  let d := digitRun s1
  if d = 0 then none
  else
    match stripOrd (s1.drop d) with
    | none => none
    | some rest =>
      let u := wsRun rest
      if u = 0 then none
      else
        match stripCI ['f', 'l', 'o', 'o', 'r'] (rest.drop u) with
        | some _ => some (w + d + 2 + u + 5)
        | none => none

/-- The `#[^,]+` core of the hash pattern. -/
def hashAfter : Str → Option Nat
  | '#' :: r =>
    let t := nonCommaRun r
    if 0 < t then some (1 + t) else none
  | _ => none

/-- Matcher for `,\s*#[^,]+` applied to the text after the initial comma. -/
def matchHashTail (s : Str) : Option Nat :=
  match hashAfter (s.drop (wsRun s)) with
  | some m => some (wsRun s + m)
  | none => none

/-- Matcher for `,\s*,` applied to the text after the first comma; consumes
through the second comma. -/
def matchCCTail (s : Str) : Option Nat :=
  if (s.drop (wsRun s)).head? = some ',' then some (wsRun s + 1) else none

/-- Worker for `subAll`: processes the string left to right; the counter
holds how many characters of an already-recognised match remain to be
skipped (they produce no output). -/
def subAllSkip (M : Char → Str → Option Nat) (r : Str) : Str → Nat → Str
  | [], _ => []
  | c :: s, k =>
    match k with
    | k' + 1 => subAllSkip M r s k'
    | 0 =>
      match M c s with
      | some n => r ++ subAllSkip M r s n
      | none => c :: subAllSkip M r s 0

/-- One global pass of Python `re.sub pat repl`: scan left to right; at a
match, emit the replacement and resume right after the matched text (the
replacement is not rescanned); otherwise copy one character.  The matcher
`M c s` reports how many characters of `s` are consumed in addition to the
head character `c`. -/
def subAll (M : Char → Str → Option Nat) (r : Str) (s : Str) : Str :=
  subAllSkip M r s 0

/-- Lift a matcher on the tail after a comma to a full matcher anchored at
a comma. -/
def commaM (T : Str → Option Nat) : Char → Str → Option Nat :=
  fun c s => if c = ',' then T s else none

/-- Matcher for `\s+` (maximal whitespace run). -/
def wsM : Char → Str → Option Nat :=
  fun c s => if pws c then some (wsRun s) else none

/-- One substitution pass of a comma-anchored pattern with empty
replacement. -/
def pass (T : Str → Option Nat) (s : Str) : Str := subAll (commaM T) [] s

def suiteT : Str → Option Nat := matchKwTail ['s', 'u', 'i', 't', 'e'] false
def steT : Str → Option Nat := matchKwTail ['s', 't', 'e'] true
def floorT : Str → Option Nat := matchKwTail ['f', 'l', 'o', 'o', 'r'] false
def roomT : Str → Option Nat := matchKwTail ['r', 'o', 'o', 'm'] false
def aptT : Str → Option Nat := matchKwTail ['a', 'p', 't'] true
def unitT : Str → Option Nat := matchKwTail ['u', 'n', 'i', 't'] false

/-- The eight substitution passes of `simplify_address`, in source order. -/
def applyPats (s : Str) : Str :=
  pass unitT (pass aptT (pass matchHashTail (pass roomT
    (pass matchFloorOrdTail (pass floorT (pass steT (pass suiteT s)))))))

/-- `re.sub(r',\s*,', ',', s)`. -/
def commaCollapse (s : Str) : Str := subAll (commaM matchCCTail) [','] s

/-- `re.sub(r'\s+', ' ', s)`. -/
def wsCollapse (s : Str) : Str := subAll wsM [' '] s

/-- Python `str.strip()`. -/
def pstrip (s : Str) : Str := ((s.dropWhile pws).reverse.dropWhile pws).reverse

/-- `simplify_address` from `org_geocoder.py` (lines 93-114), on character
lists. -/
def simplifyL (a : Str) : Str := pstrip (wsCollapse (commaCollapse (applyPats a)))

/-- `simplify_address` from `org_geocoder.py` on `String`. -/
def simplify_address (a : String) : String := ⟨simplifyL a.data⟩

example : simplify_address ",,," = ",," := by decide
example : simplify_address ",," = "," := by decide
example : simplify_address "x,, Suite 1,,y" = "x,,y" := by decide
example : simplify_address "x, Sui, 3rd Floorte 1, b" = "x, Suite 1, b" := by decide
example : simplify_address "x, Suite 1, b" = "x, b" := by decide
example : simplify_address "a, Suite  " = "a" := by decide
example : simplify_address "a, Suite ,b" = "a, Suite ,b" := by decide
example : simplify_address "a, Ste. 5, b" = "a, b" := by decide
example : simplify_address "a, Stereo x, b" = "a, Stereo x, b" := by decide
example : simplify_address "a, 21st Floor, b" = "a, b" := by decide
example : simplify_address "a, # 5, b" = "a, b" := by decide
example : simplify_address ", #x" = "" := by decide
example : simplify_address "100 Main St, Suite 200, Springfield, IL, 62701"
    = "100 Main St, Springfield, IL, 62701" := by decide
example : simplify_address "a, Suite 1, #2" = "a" := by decide
example : simplify_address "a, , , b" = "a, , b" := by decide
example : simplify_address "a, 3rd Floor West, b" = "a West, b" := by decide
example : simplify_address "a, Apt. 4B, c" = "a, c" := by decide

/-! ## Python string helpers -/

/-- `str.strip()` on `String`. -/
def pyStripS (s : String) : String := ⟨pstrip s.data⟩

/-- `str.lower()` (ASCII). -/
def lowerS (s : String) : String := ⟨s.data.map Char.toLower⟩

/-- `str.upper()` (ASCII). -/
def upperS (s : String) : String := ⟨s.data.map Char.toUpper⟩

/-- Does `p` occur at the head of `s`? -/
def startsWithL : Str → Str → Bool
  | [], _ => true
  | _ :: _, [] => false
  | a :: p, b :: s => a = b && startsWithL p s

/-- Does `p` occur as a contiguous substring of `s`?  (Python `p in s`;
the empty string occurs in everything.) -/
def containsL (p : Str) : Str → Bool
  | [] => p.isEmpty
  | c :: t => startsWithL p (c :: t) || containsL p t

/-- Python `needle in hay` on `String`. -/
def pyIn (needle hay : String) : Bool := containsL needle.data hay.data

/-! ## GeocodeResolver: `geocode_address_comprehensive` (lines 167-219)

The free backend (`geolocator.geocode`) and the optional paid backend
(Google Maps) are opaque capabilities `String → Option α`: a timeout, a
service error and an empty result are all swallowed by the source into
"no match", hence all modelled as `none`.  The returned tag is the
`method` string exactly as the source produces it. -/

/-- The guard `simplified != address and simplified.strip()` that the
source evaluates before each simplified-address strategy (lines 184 and
208). -/
def useSimpB (address : String) : Bool :=
  simplify_address address != address && pyStripS (simplify_address address) != ""

/-- `geocode_address_comprehensive`: the four-strategy fallback chain. -/
def geocode_address_comprehensive {α : Type} (free : String → Option α)
    (paid : Option (String → Option α)) (address : String) :
    Option α × String :=
  match free address with
  | some c => (some c, "Free Service (Full)")
  | none =>
    match (if useSimpB address then free (simplify_address address) else none) with
    | some c => (some c, "Free Service (Simplified)")
    | none =>
      match paid with
      | none => (none, "Failed")
      | some g =>
        match g address with
        | some c => (some c, "Google Maps (Full)")
        | none =>
          match (if useSimpB address then g (simplify_address address) else none) with
          | some c => (some c, "Google Maps (Simplified)")
          | none => (none, "Failed")

/-- First successful strategy of an ordered strategy list, as §4.2 of the
spec words it; if all strategies exhaust, `(none, "Failed")`. -/
def firstHit {α : Type} : List (Option α × String) → Option α × String
  | [] => (none, "Failed")
  | (some c, m) :: _ => (some c, m)
  | (none, _) :: rest => firstHit rest

/-- `resolve` written from the spec's words (§4.2): the strict strategy
order — free/full, free/simplified (only when it differs and is
non-empty), paid/full when configured, paid/simplified when configured and
differing — stopping at the first success. -/
def resolveSpec {α : Type} (free : String → Option α)
    (paid : Option (String → Option α)) (address : String) :
    Option α × String :=
  firstHit ([(free address, "Free Service (Full)")] ++
    (if useSimpB address then
      [(free (simplify_address address), "Free Service (Simplified)")]
     else []) ++
    (match paid with
     | some g =>
       [(g address, "Google Maps (Full)")] ++
         (if useSimpB address then
           [(g (simplify_address address), "Google Maps (Simplified)")]
          else [])
     | none => []))

/-! ## Rows of the CSV table -/

/-- A CSV cell: `none` models a pandas NaN / `None`. -/
abbrev Cell := Option String

/-- A data-frame row: column name to cell.  A column missing from the list
models a column absent from the frame. -/
structure Row where
  cells : List (String × Cell)
deriving DecidableEq

/-- `row[col]` (a missing column yields `none`; the source only indexes
columns it has verified or created). -/
def Row.cell (r : Row) (c : String) : Cell :=
  match r.cells.find? (fun p => p.1 == c) with
  | some p => p.2
  | none => none

/-- `str(x)` of a cell value: a NaN prints as `"nan"`. -/
def pyStrCell : Cell → String
  | some v => v
  | none => "nan"

/-- `str(row.get(col, ''))`: empty when the column is absent, otherwise
the cell with NaN printing as `"nan"`. -/
def Row.getD (r : Row) (c : String) : String :=
  match r.cells.find? (fun p => p.1 == c) with
  | some p => pyStrCell p.2
  | none => ""

def colName : String := "Organization Name"
def colStreet : String := "Organization: Primary Address Street"
def colCity : String := "Organization: Primary Address City"
def colState : String := "Organization: Primary Address State/Province"
def colZip : String := "Organization: Primary Address Zip/Postal Code"

/-- `' '.join(s.split())` (with the prior `\n`/`\r`-to-space replacements
subsumed): collapse every whitespace run to one space and trim. -/
def pySquish (s : String) : String := ⟨pstrip (wsCollapse s.data)⟩

/-- `create_full_address` (lines 38-63): join the non-empty trimmed parts
with `", "`; the street is additionally whitespace-collapsed. -/
def create_full_address (r : Row) : String :=
  let part (c : Cell) (f : String → String) : List String :=
    match c with
    | some v => if pyStripS v != "" then [f v] else []
    | none => []
  let parts :=
    part (r.cell colStreet) pySquish ++ part (r.cell colCity) pyStripS ++
    part (r.cell colState) pyStripS ++ part (r.cell colZip) pyStripS
  String.intercalate ", " parts

/-- `create_org_id` (lines 404-410): the composite identity
`name|street|city|state|zip`, each part trimmed and lower-cased. -/
def create_org_id (r : Row) : String :=
  lowerS (pyStripS (r.getD colName)) ++ "|" ++
  lowerS (pyStripS (r.getD colStreet)) ++ "|" ++
  lowerS (pyStripS (r.getD colCity)) ++ "|" ++
  lowerS (pyStripS (r.getD colState)) ++ "|" ++
  lowerS (pyStripS (r.getD colZip))

/-- The column scan `for col in df.columns: if 'organization' in
col.lower() and 'id' in col.lower(): ...; break` — the first matching
column (lines 548-556 and 693-696). -/
def findIdCol (cols : List String) : Option String :=
  cols.find? (fun c => pyIn "organization" (lowerS c) && pyIn "id" (lowerS c))

/-! ## RowEnrichmentPipeline: one iteration of the row loop
(`geocode_csv`, lines 544-658) -/

/-- The externally observable effects of processing one row:
which status/method values are written (`none` = the cell is left
untouched), whether `geocode_address_comprehensive` was invoked (it issues
one to four geocoding network requests), how many weather.gov zone lookups
were issued, and whether the inter-row delay ran. -/
structure RowEffect where
  statusWrite : Option String
  methodWrite : Option String
  geocoderInvoked : Bool
  zoneLookups : Nat
  slept : Bool
deriving DecidableEq

/-- `pd.isna(c) or c in ['Not Found', 'N/A', '']` (lines 605-607). -/
def cellNeedsUpdate (c : Cell) : Bool :=
  match c with
  | none => true
  | some v => v == "Not Found" || v == "N/A" || v == ""

/-- The row already carries a complete geocode: all four of
latitude/longitude/status/method non-NaN (lines 569-574). -/
def has_geocoding_data (r : Row) : Bool :=
  (r.cell "Latitude").isSome && (r.cell "Longitude").isSome &&
  (r.cell "Geocoding_Status").isSome && (r.cell "Geocoding_Method").isSome

/-- The previously-geocoded short-circuit test (lines 546-556): the first
ID-like column's stripped value is among the loaded IDs.  When no ID-like
column exists the test never fires. -/
def indexSkip (cols : List String) (already : List String) (r : Row) : Bool :=
  match findIdCol cols with
  | some c => already.contains (pyStripS (pyStrCell (r.cell c)))
  | none => false

/-- One iteration of the row loop of `geocode_csv` (lines 544-658).
`cols` are the frame's columns, `already` the IDs loaded from the index
file, `enhanced` the `enhanced_zones` flag, and `resolver` the result of
`geocode_address_comprehensive` on the active backends for a given
address.  `idx` is the positional row index and `total` the row count
(the delay runs only when `idx < total - 1`).  Zone-field writes are not
modelled; the zone lookup count is. -/
def processRow {α : Type} (cols : List String) (already : List String)
    (enhanced : Bool) (resolver : String → Option α × String)
    (r : Row) (idx total : Nat) : RowEffect :=
  if indexSkip cols already r then
    { statusWrite := some "Previously Geocoded", methodWrite := none,
      geocoderInvoked := false, zoneLookups := 0, slept := false }
  else
    let address := create_full_address r
    if address == "" || pyStripS address == "" then
      { statusWrite := some "Empty Address", methodWrite := none,
        geocoderInvoked := false, zoneLookups := 0, slept := false }
    else
      let needsC := cellNeedsUpdate (r.cell "CWA_Region")
      let needsO := enhanced && cellNeedsUpdate (r.cell "CWA_Office")
      let zl : Nat :=
        if enhanced then (if needsC || needsO then 1 else 0)
        else (if needsC then 1 else 0)
      if has_geocoding_data r then
        { statusWrite := none, methodWrite := none, geocoderInvoked := false,
          zoneLookups := zl, slept := decide (idx + 1 < total) }
      else
        match resolver address with
        | (some _, m) =>
          { statusWrite := some "Success", methodWrite := some m,
            geocoderInvoked := true, zoneLookups := zl,
            slept := decide (idx + 1 < total) }
        | (none, _) =>
          { statusWrite := some "Failed", methodWrite := some "Failed",
            geocoderInvoked := true, zoneLookups := 0, slept := false }

/-! ## IncrementalState: the persisted index -/

structure IndexEntry where
  orgId : String
  geocoded : Bool
  lastUpdated : String
deriving DecidableEq

/-- Loading the index file (lines 352-359): the IDs of the entries with
`Geocoded == True`. -/
def loadAlready (idx : List IndexEntry) : List String :=
  (idx.filter (fun e => e.geocoded)).map (fun e => e.orgId)

/-- `drop_duplicates(subset=['Organization_ID'], keep='last')`: keep, in
order, exactly the rows that have no later row with the same key. -/
def dropDupLast : List IndexEntry → List IndexEntry
  | [] => []
  | e :: t =>
    if t.any (fun e2 => e2.orgId == e.orgId) then dropDupLast t
    else e :: dropDupLast t

/-- `pd.concat([existing_index, index_df])` followed by the duplicate drop
(lines 718-720): merging the persisted index with the current run's. -/
def mergeIndex (existing incoming : List IndexEntry) : List IndexEntry :=
  dropDupLast (existing ++ incoming)

/-- The identity used to key the saved index (lines 691-702): the first
ID-like column when one exists, otherwise the composite `create_org_id`. -/
def saveIdOf (cols : List String) : Row → String :=
  match findIdCol cols with
  | some c => fun r => pyStrCell (r.cell c)
  | none => create_org_id

/-- The index row built for one data row (lines 706-710): keyed by
`idOf`, `Geocoded` true exactly for final status Success or Previously
Geocoded, `Last_Updated` the run date. -/
def indexEntryFor (idOf : Row → String) (runDate : String) (r : Row) :
    IndexEntry :=
  { orgId := idOf r,
    geocoded := r.cell "Geocoding_Status" == some "Success" ||
                r.cell "Geocoding_Status" == some "Previously Geocoded",
    lastUpdated := runDate }

/-- The current run's index rows (lines 705-710): one entry per data
row. -/
def buildIndex (idOf : Row → String) (runDate : String) (rows : List Row) :
    List IndexEntry :=
  rows.map (indexEntryFor idOf runDate)

/-! ## adoptPrior: reusing a previous output file (lines 444-491) -/

/-- The geocoding columns copied from a previous output file
(lines 452-466): the four core fields plus whichever zone columns the
prior table carries. -/
def geocoding_columns (priorCols : List String) (enhanced : Bool) :
    List String :=
  ["Latitude", "Longitude", "Geocoding_Status", "Geocoding_Method"] ++
  (if priorCols.contains "CWA_Region" then ["CWA_Region"] else []) ++
  (if enhanced && priorCols.contains "CWA_Office" then ["CWA_Office"] else []) ++
  (if priorCols.contains "County_Zone" then ["County_Zone"] else []) ++
  (if priorCols.contains "Fire_Zone" then ["Fire_Zone"] else []) ++
  (if priorCols.contains "Grid_ID" then ["Grid_ID", "Grid_X", "Grid_Y"] else [])

/-- Replace the value under `k`, or append it (a Python dict assignment,
insertion-ordered). -/
def upsert {β : Type} (d : List (String × β)) (k : String) (v : β) :
    List (String × β) :=
  if (d.find? (fun p => p.1 == k)).isSome then
    d.map (fun p => if p.1 == k then (k, v) else p)
  else d ++ [(k, v)]

/-- Does the row carry the column at all (`col in row` on a Series)? -/
def Row.hasCol (r : Row) (c : String) : Bool :=
  (r.cells.find? (fun p => p.1 == c)).isSome

/-- `geocoded_dict` (lines 468-475): iterate the prior rows whose status
is Success, in order; later rows with the same identity overwrite earlier
ones. -/
def geocodedDict (gcols : List String) (prior : List Row) :
    List (String × List (String × Cell)) :=
  (prior.filter (fun p => p.cell "Geocoding_Status" == some "Success")).foldl
    (fun d p =>
      upsert d (create_org_id p)
        ((gcols.filter (fun c => p.hasCol c)).map (fun c => (c, p.cell c))))
    []

/-- `df.at[idx, col] = value`. -/
def Row.setCell (r : Row) (c : String) (v : Cell) : Row :=
  if (r.cells.find? (fun p => p.1 == c)).isSome then
    ⟨r.cells.map (fun p => if p.1 == c then (c, v) else p)⟩
  else ⟨r.cells ++ [(c, v)]⟩

/-- Lines 481-486 for a single current row: copy the stored fields when
the identity is in the dictionary. -/
def adoptRow (d : List (String × List (String × Cell))) (r : Row) : Row :=
  match d.find? (fun p => p.1 == create_org_id r) with
  | some p => p.2.foldl (fun row cv => row.setCell cv.1 cv.2) r
  | none => r

/-- `adoptPrior`: apply the previously geocoded data to every current
row. -/
def adoptPrior (gcols : List String) (prior cur : List Row) : List Row :=
  cur.map (adoptRow (geocodedDict gcols prior))

/-! ## Alert-to-zone matching (`cwa_alert_lookup.py`, lines 166-182) -/

/-- The set of target zones one active alert is matched to: direct UGC
membership first; only when that yields nothing, the heuristic fallback —
a 3-character zone (a CWA office code) matches by case-insensitive
substring against the sender name, any other zone by case-insensitive
substring against the area description. -/
def alertMatchedZones (targets ugc : List String) (sender area : String) :
    List String :=
  let direct := ugc.filter (fun u => targets.contains u)
  if direct.isEmpty then
    targets.filter (fun z =>
      if z.length = 3 then pyIn (upperS z) (upperS sender)
      else pyIn (upperS z) (upperS area))
  else direct

/-! ## Claims about the row pipeline -/

/-- C3: a row whose identity the loaded incremental index reports as
already successfully resolved (its ID-column value, stripped, is among the
IDs of the `Geocoded == True` index entries) is short-circuited with
status Previously Geocoded, no geocoder invocation and no zone lookup,
whatever its address content. -/
theorem previously_geocoded_short_circuit {α : Type}
    (cols : List String) (oldIdx : List IndexEntry) (enhanced : Bool)
    (resolver : String → Option α × String) (r : Row) (idx total : Nat)
    (c : String) (hc : findIdCol cols = some c)
    (h : (loadAlready oldIdx).contains (pyStripS (pyStrCell (r.cell c))) = true) :
    processRow cols (loadAlready oldIdx) enhanced resolver r idx total =
      { statusWrite := some "Previously Geocoded", methodWrite := none,
        geocoderInvoked := false, zoneLookups := 0, slept := false } := by
  have hs : indexSkip cols (loadAlready oldIdx) r = true := by
    unfold indexSkip
    rw [hc]
    exact h
  unfold processRow
  rw [hs]
  simp

theorem previously_geocoded_short_circuit_witness :
    findIdCol ["Organization ID", "Organization Name"] = some "Organization ID" ∧
    (loadAlready [⟨"ACME-1", true, "2025-01-01"⟩]).contains
      (pyStripS (pyStrCell ((Row.mk [("Organization ID", some "ACME-1")]).cell
        "Organization ID"))) = true ∧
    processRow (α := Unit) ["Organization ID", "Organization Name"]
        (loadAlready [⟨"ACME-1", true, "2025-01-01"⟩]) true
        (fun _ => (none, "Failed")) (Row.mk [("Organization ID", some "ACME-1")]) 0 3 =
      { statusWrite := some "Previously Geocoded", methodWrite := none,
        geocoderInvoked := false, zoneLookups := 0, slept := false } :=
  ⟨by decide, by decide,
    previously_geocoded_short_circuit ["Organization ID", "Organization Name"]
      [⟨"ACME-1", true, "2025-01-01"⟩] true (fun _ => (none, "Failed"))
      (Row.mk [("Organization ID", some "ACME-1")]) 0 3 "Organization ID"
      (by decide) (by decide)⟩

/-- C5: a row that is not short-circuited by the index check and whose
full address is empty (all address fields empty after trimming yield the
empty concatenation) gets status Empty Address and issues no network
call. -/
theorem empty_address_short_circuit {α : Type}
    (cols : List String) (already : List String) (enhanced : Bool)
    (resolver : String → Option α × String) (r : Row) (idx total : Nat)
    (h1 : indexSkip cols already r = false)
    (h2 : create_full_address r = "") :
    processRow cols already enhanced resolver r idx total =
      { statusWrite := some "Empty Address", methodWrite := none,
        geocoderInvoked := false, zoneLookups := 0, slept := false } := by
  unfold processRow
  rw [h1]
  simp [h2]

theorem empty_address_short_circuit_witness :
    indexSkip ["Name"] [] (Row.mk [("Name", some "A"),
      (Geo.colStreet, some "  "), (Geo.colCity, none)]) = false ∧
    create_full_address (Row.mk [("Name", some "A"),
      (Geo.colStreet, some "  "), (Geo.colCity, none)]) = "" ∧
    processRow (α := Unit) ["Name"] [] false (fun _ => (none, "Failed"))
        (Row.mk [("Name", some "A"), (Geo.colStreet, some "  "),
          (Geo.colCity, none)]) 0 2 =
      { statusWrite := some "Empty Address", methodWrite := none,
        geocoderInvoked := false, zoneLookups := 0, slept := false } :=
  ⟨by decide, by decide,
    empty_address_short_circuit ["Name"] [] false (fun _ => (none, "Failed"))
      (Row.mk [("Name", some "A"), (Geo.colStreet, some "  "),
        (Geo.colCity, none)]) 0 2 (by decide) (by decide)⟩

/-- C4: when no column name contains (lower-cased) both "organization" and
"id", the per-row index lookup never fires, so no row is ever assigned
status Previously Geocoded — even when the loaded index holds the row's
composite identity — while the index saved at the end of such a run is
keyed by the composite `create_org_id`. -/
theorem no_id_column_never_previously_geocoded {α : Type}
    (cols : List String) (already : List String) (enhanced : Bool)
    (resolver : String → Option α × String) (r : Row) (idx total : Nat)
    (h : findIdCol cols = none)
    (hmem : already.contains (create_org_id r) = true) :
    (processRow cols already enhanced resolver r idx total).statusWrite ≠
        some "Previously Geocoded" ∧
      saveIdOf cols = create_org_id := by
  have hskip : indexSkip cols already r = false := by
    unfold indexSkip; rw [h]
  refine ⟨?_, ?_⟩
  · unfold processRow
    rw [hskip]
    simp only [Bool.false_eq_true, if_false]
    split
    · simp
    · split
      · simp
      · rcases hres : resolver (create_full_address r) with ⟨_ | _, m⟩ <;>
          simp [hres]
  · unfold saveIdOf
    rw [h]

theorem no_id_column_never_previously_geocoded_witness :
    findIdCol ["Organization Name", Geo.colStreet] = none ∧
    [create_org_id (Row.mk [("Organization Name", some "Acme")])].contains
      (create_org_id (Row.mk [("Organization Name", some "Acme")])) = true ∧
    ((processRow (α := Unit) ["Organization Name", Geo.colStreet]
          [create_org_id (Row.mk [("Organization Name", some "Acme")])] true
          (fun _ => (none, "Failed"))
          (Row.mk [("Organization Name", some "Acme")]) 0 1).statusWrite ≠
        some "Previously Geocoded" ∧
      saveIdOf ["Organization Name", Geo.colStreet] = create_org_id) :=
  ⟨by decide, by decide,
    no_id_column_never_previously_geocoded ["Organization Name", Geo.colStreet]
      [create_org_id (Row.mk [("Organization Name", some "Acme")])] true
      (fun _ => (none, "Failed")) (Row.mk [("Organization Name", some "Acme")])
      0 1 (by decide) (by decide)⟩

/-! ## Claims about the resolver -/

/-- C1 (amended): `geocode_address_comprehensive` equals the spec's
ordered strategy chain (free/full, free/simplified when it differs and is
non-empty, paid/full when configured, paid/simplified when configured and
differing; first success wins, otherwise `(none, "Failed")`); and whenever
the free backend fails on the full address, succeeds on the simplified
address, the simplified address is non-empty, and no paid backend is
configured, the result is the coordinates with method
"Free Service (Simplified)". -/
theorem resolver_strategy_order {α : Type} (free : String → Option α)
    (paid : Option (String → Option α)) (address : String) :
    geocode_address_comprehensive free paid address =
        resolveSpec free paid address ∧
      ∀ c : α, free address = none →
        free (simplify_address address) = some c →
        pyStripS (simplify_address address) ≠ "" →
        geocode_address_comprehensive free none address =
          (some c, "Free Service (Simplified)") := by
  constructor
  · unfold geocode_address_comprehensive resolveSpec
    rcases hfull : free address with _ | c
    · rcases hu : useSimpB address with _ | _
      · rcases paid with _ | g
        · simp [firstHit, hu, hfull]
        · rcases hg : g address with _ | c <;> simp [firstHit, hu, hfull, hg]
      · rcases hs : free (simplify_address address) with _ | c
        · rcases paid with _ | g
          · simp [firstHit, hu, hfull, hs]
          · rcases hg : g address with _ | c
            · rcases hgs : g (simplify_address address) with _ | c <;>
                simp [firstHit, hu, hfull, hs, hg, hgs]
            · simp [firstHit, hu, hfull, hs, hg]
        · simp [firstHit, hu, hfull, hs]
    · simp [firstHit, hfull]
  · intro c hfull hs hne
    have hd : simplify_address address ≠ address := by
      intro he
      rw [he, hfull] at hs
      exact Option.noConfusion hs
    have hu : useSimpB address = true := by
      unfold useSimpB
      simp only [Bool.and_eq_true, bne_iff_ne, ne_eq]
      exact ⟨hd, hne⟩
    unfold geocode_address_comprehensive
    rw [hfull]
    simp only [hu, if_true, hs]

/-- The backend of the witness for `resolver_strategy_order`: succeeds
exactly on the simplified form of `"x, Suite 1"`. -/
def freeBackendW : String → Option Unit :=
  fun t => if t == "x" then some () else none

theorem resolver_strategy_order_witness :
    freeBackendW "x, Suite 1" = none ∧
    freeBackendW (simplify_address "x, Suite 1") = some () ∧
    pyStripS (simplify_address "x, Suite 1") ≠ "" ∧
    geocode_address_comprehensive freeBackendW none "x, Suite 1" =
      (some (), "Free Service (Simplified)") :=
  ⟨by decide, by decide, by decide,
    (resolver_strategy_order freeBackendW none "x, Suite 1").2 ()
      (by decide) (by decide) (by decide)⟩

/-- The free backend of the C1 counterexample: succeeds exactly on the
empty string. -/
def freeBackendCex : String → Option Unit :=
  fun t => if t == "" then some () else none

/-- C1 counterexample: for the address `", #x"` the simplified address is
empty; the free backend fails on the full address and succeeds on the
simplified one, no paid backend is configured, yet the resolver returns
`(none, "Failed")` — not method "Free Service (Simplified)" as the claim's
final sentence asserts. -/
theorem resolver_simplified_empty_counterexample :
    freeBackendCex ", #x" = none ∧
    freeBackendCex (simplify_address ", #x") = some () ∧
    geocode_address_comprehensive freeBackendCex none ", #x" =
        (none, "Failed") ∧
    (geocode_address_comprehensive freeBackendCex none ", #x").2 ≠
        "Free Service (Simplified)" := by
  refine ⟨by decide, by decide, by decide, by decide⟩

/-! ## Claims about alert matching -/

/-- C9: one active alert is matched to a target zone `z` by exact
membership of `z` in the alert's UGC code list; only when no target zone
matches directly does the fallback apply, under which a three-character
target zone matches exactly when it occurs case-insensitively as a
substring of the alert's sender name, and any other target zone exactly
when it occurs case-insensitively as a substring of the area
description. -/
theorem alert_zone_matching (targets ugc : List String)
    (sender area : String) (z : String) :
    z ∈ alertMatchedZones targets ugc sender area ↔
      (z ∈ targets ∧ z ∈ ugc) ∨
      ((∀ u ∈ ugc, u ∉ targets) ∧ z ∈ targets ∧
        (if z.length = 3 then pyIn (upperS z) (upperS sender) = true
         else pyIn (upperS z) (upperS area) = true)) := by
  unfold alertMatchedZones
  by_cases hd : (ugc.filter (fun u => targets.contains u)).isEmpty
  · have hnil := List.isEmpty_iff.mp hd
    have hnd : ∀ u ∈ ugc, u ∉ targets := by
      intro u hu hut
      exact (List.filter_eq_nil_iff.mp hnil u hu) (List.elem_iff.mpr hut)
    rw [if_pos hd]
    simp only [List.mem_filter]
    constructor
    · rintro ⟨hz, hcond⟩
      refine Or.inr ⟨hnd, hz, ?_⟩
      split at hcond <;> simp_all
    · rintro (⟨hz, hu⟩ | ⟨-, hz, hcond⟩)
      · exact absurd hz (hnd z hu)
      · refine ⟨hz, ?_⟩
        split at hcond <;> simp_all
  · rw [if_neg hd]
    have hne : ugc.filter (fun u => targets.contains u) ≠ [] := by
      intro hnil; rw [hnil] at hd; exact hd rfl
    obtain ⟨u0, hu0⟩ := List.exists_mem_of_ne_nil _ hne
    have hu0' := List.mem_filter.mp hu0
    constructor
    · intro hz
      have hz' := List.mem_filter.mp hz
      exact Or.inl ⟨List.elem_iff.mp hz'.2, hz'.1⟩
    · rintro (⟨hzt, hzu⟩ | ⟨hnone, -, -⟩)
      · exact List.mem_filter.mpr ⟨hzu, List.elem_iff.mpr hzt⟩
      · exact absurd (List.elem_iff.mp hu0'.2) (hnone u0 hu0'.1)

/-! ## Claims about the incremental index -/

theorem getLast?_cons_of_ne_nil {α : Type} (a : α) {l : List α}
    (h : l ≠ []) : (a :: l).getLast? = l.getLast? := by
  cases l with
  | nil => exact absurd rfl h
  | cons b t => rfl

theorem mem_of_mem_dropDupLast {l : List IndexEntry} {e : IndexEntry}
    (h : e ∈ dropDupLast l) : e ∈ l := by
  induction l with
  | nil => simpa [dropDupLast] using h
  | cons a t ih =>
    unfold dropDupLast at h
    by_cases ha : t.any (fun e2 => e2.orgId == a.orgId)
    · rw [if_pos ha] at h
      exact List.mem_cons_of_mem _ (ih h)
    · rw [if_neg ha] at h
      rcases List.mem_cons.mp h with h1 | h2
      · exact h1 ▸ List.mem_cons_self _ _
      · exact List.mem_cons_of_mem _ (ih h2)

/-- The duplicate drop leaves pairwise distinct `Organization_ID`s. -/
theorem keys_nodup_dropDupLast (l : List IndexEntry) :
    ((dropDupLast l).map (fun e => e.orgId)).Nodup := by
  induction l with
  | nil => simp [dropDupLast]
  | cons e t ih =>
    unfold dropDupLast
    by_cases h : t.any (fun e2 => e2.orgId == e.orgId)
    · rw [if_pos h]; exact ih
    · rw [if_neg h]
      refine List.nodup_cons.mpr ⟨?_, ih⟩
      intro hmem
      obtain ⟨e2, he2, heq⟩ := List.mem_map.mp hmem
      exact h (List.any_eq_true.mpr
        ⟨e2, mem_of_mem_dropDupLast he2, by simp [heq]⟩)

/-- The unique survivor for a key after the duplicate drop is the last
occurrence of that key. -/
theorem find?_dropDupLast (l : List IndexEntry) (k : String) :
    (dropDupLast l).find? (fun e => e.orgId == k) =
      (l.filter (fun e => e.orgId == k)).getLast? := by
  induction l with
  | nil => simp [dropDupLast]
  | cons e t ih =>
    unfold dropDupLast
    by_cases h : t.any (fun e2 => e2.orgId == e.orgId)
    · rw [if_pos h, ih]
      by_cases hk : e.orgId = k
      · have hf : t.filter (fun x => x.orgId == k) ≠ [] := by
          obtain ⟨e2, he2, hpe⟩ := List.any_eq_true.mp h
          intro hnil
          have h2 : e2 ∈ t.filter (fun x => x.orgId == k) :=
            List.mem_filter.mpr ⟨he2, by simp at hpe ⊢; rw [hpe, hk]⟩
          rw [hnil] at h2
          exact List.not_mem_nil _ h2
        rw [List.filter_cons_of_pos (by simp [hk]),
          getLast?_cons_of_ne_nil _ hf]
      · rw [List.filter_cons_of_neg (by simp [hk])]
    · rw [if_neg h]
      by_cases hk : e.orgId = k
      · rw [List.find?_cons_of_pos _ (by simp [hk])]
        have hf : t.filter (fun x => x.orgId == k) = [] := by
          apply List.filter_eq_nil_iff.mpr
          intro x hx hpx
          apply h
          exact List.any_eq_true.mpr ⟨x, hx, by simp at hpx ⊢; rw [hpx, hk]⟩
        rw [List.filter_cons_of_pos (by simp [hk]), hf]
        rfl
      · rw [List.find?_cons_of_neg _ (by simp [hk]), ih,
          List.filter_cons_of_neg (by simp [hk])]

/-- C6: merging the persisted index with the current run's index is
last-write-wins per identity with the incoming entry always winning: the
merged index has pairwise distinct `Organization_ID`s (at most one entry
per identity), and for an identity present in both inputs the unique
surviving entry is the (last) incoming entry with that identity. -/
theorem merge_incoming_wins (existing incoming : List IndexEntry)
    (k : String)
    (h1 : k ∈ existing.map (fun e => e.orgId))
    (h2 : k ∈ incoming.map (fun e => e.orgId)) :
    ((mergeIndex existing incoming).map (fun e => e.orgId)).Nodup ∧
    ∃ e, (mergeIndex existing incoming).find? (fun x => x.orgId == k) =
        some e ∧
      e ∈ incoming ∧ e.orgId = k ∧
      (incoming.filter (fun x => x.orgId == k)).getLast? = some e := by
  refine ⟨keys_nodup_dropDupLast _, ?_⟩
  have hfne : incoming.filter (fun x => x.orgId == k) ≠ [] := by
    obtain ⟨e, he, hek⟩ := List.mem_map.mp h2
    intro hnil
    have hm : e ∈ incoming.filter (fun x => x.orgId == k) :=
      List.mem_filter.mpr ⟨he, by simp [hek]⟩
    rw [hnil] at hm
    exact List.not_mem_nil _ hm
  obtain ⟨e, he⟩ : ∃ e,
      (incoming.filter (fun x => x.orgId == k)).getLast? = some e := by
    rcases hq : (incoming.filter (fun x => x.orgId == k)).getLast? with _ | e
    · exact absurd (List.getLast?_eq_none_iff.mp hq) hfne
    · exact ⟨e, hq⟩
  have hmemf : e ∈ incoming.filter (fun x => x.orgId == k) :=
    List.mem_of_mem_getLast? he
  refine ⟨e, ?_, (List.mem_filter.mp hmemf).1, ?_, he⟩
  · unfold mergeIndex
    rw [find?_dropDupLast, List.filter_append,
      List.getLast?_append_of_ne_nil _ hfne, he]
  · have := (List.mem_filter.mp hmemf).2
    simpa using this

theorem merge_incoming_wins_witness :
    ("K" ∈ ([⟨"K", false, "2024-01-01"⟩] :
        List IndexEntry).map (fun e => e.orgId)) ∧
    ("K" ∈ ([⟨"K", true, "2025-06-01"⟩] :
        List IndexEntry).map (fun e => e.orgId)) ∧
    (((mergeIndex [⟨"K", false, "2024-01-01"⟩]
          [⟨"K", true, "2025-06-01"⟩]).map (fun e => e.orgId)).Nodup ∧
      ∃ e, (mergeIndex [⟨"K", false, "2024-01-01"⟩]
            [⟨"K", true, "2025-06-01"⟩]).find? (fun x => x.orgId == "K") =
          some e ∧
        e ∈ [(⟨"K", true, "2025-06-01"⟩ : IndexEntry)] ∧ e.orgId = "K" ∧
        (([⟨"K", true, "2025-06-01"⟩] :
            List IndexEntry).filter (fun x => x.orgId == "K")).getLast? =
          some e) :=
  ⟨by decide, by decide,
    merge_incoming_wins [⟨"K", false, "2024-01-01"⟩]
      [⟨"K", true, "2025-06-01"⟩] "K" (by decide) (by decide)⟩

/-- The current run's index rows filtered to one identity, when row
identities are pairwise distinct: exactly the entry of that row. -/
theorem buildIndex_filter (idOf : Row → String) (runDate : String)
    (rows : List Row) (r : Row) (hmem : r ∈ rows)
    (hnodup : (rows.map idOf).Nodup) :
    (buildIndex idOf runDate rows).filter (fun e => e.orgId == idOf r) =
      [indexEntryFor idOf runDate r] := by
  induction rows with
  | nil => cases hmem
  | cons a t ih =>
    have hnd : idOf a ∉ t.map idOf ∧ (t.map idOf).Nodup := by
      rw [List.map_cons] at hnodup
      exact List.nodup_cons.mp hnodup
    rcases List.mem_cons.mp hmem with rfl | hmem'
    · unfold buildIndex at *
      rw [List.map_cons, List.filter_cons_of_pos (by simp [indexEntryFor])]
      have hzero : (t.map (indexEntryFor idOf runDate)).filter
          (fun e => e.orgId == idOf r) = [] := by
        apply List.filter_eq_nil_iff.mpr
        intro x hx hpx
        obtain ⟨p, hp, hppx⟩ := List.mem_map.mp hx
        apply hnd.1
        have : x.orgId = idOf r := by simpa using hpx
        rw [← hppx] at this
        exact this ▸ List.mem_map.mpr ⟨p, hp, rfl⟩
      rw [hzero]
    · unfold buildIndex at *
      rw [List.map_cons, List.filter_cons_of_neg ?_, ih hmem' hnd.2]
      simp only [indexEntryFor, beq_iff_eq]
      intro hcontra
      exact hnd.1 (hcontra ▸ List.mem_map.mpr ⟨r, hmem', rfl⟩)

/-- C10: after a run that saves the index, the merged index's unique
entry for each processed identity (row identities being pairwise
distinct) is the current run's entry: `Geocoded` true exactly when the
row's final status is Success or Previously Geocoded, and `Last_Updated`
equal to the current run's date — whatever entry the pre-existing index
held for that identity. -/
theorem index_entry_after_run (old : List IndexEntry) (idOf : Row → String)
    (runDate : String) (rows : List Row) (r : Row)
    (hmem : r ∈ rows) (hnodup : (rows.map idOf).Nodup) :
    (mergeIndex old (buildIndex idOf runDate rows)).find?
        (fun e => e.orgId == idOf r) =
      some (indexEntryFor idOf runDate r) ∧
    (indexEntryFor idOf runDate r).geocoded =
      (r.cell "Geocoding_Status" == some "Success" ||
       r.cell "Geocoding_Status" == some "Previously Geocoded") ∧
    (indexEntryFor idOf runDate r).lastUpdated = runDate := by
  refine ⟨?_, rfl, rfl⟩
  unfold mergeIndex
  rw [find?_dropDupLast, List.filter_append,
    buildIndex_filter idOf runDate rows r hmem hnodup,
    List.getLast?_append_of_ne_nil _ (by simp)]
  rfl

theorem index_entry_after_run_witness :
    ((Row.mk [("Org ID", some "K"),
        ("Geocoding_Status", some "Success")]) ∈
      [Row.mk [("Org ID", some "K"), ("Geocoding_Status", some "Success")]]) ∧
    (([Row.mk [("Org ID", some "K"),
        ("Geocoding_Status", some "Success")]].map
        (saveIdOf ["Org ID"])).Nodup) ∧
    (mergeIndex [⟨"K", true, "2024-01-01"⟩]
        (buildIndex (saveIdOf ["Org ID"]) "2025-06-01"
          [Row.mk [("Org ID", some "K"),
            ("Geocoding_Status", some "Success")]])).find?
        (fun e => e.orgId == saveIdOf ["Org ID"]
          (Row.mk [("Org ID", some "K"),
            ("Geocoding_Status", some "Success")])) =
      some (indexEntryFor (saveIdOf ["Org ID"]) "2025-06-01"
        (Row.mk [("Org ID", some "K"),
          ("Geocoding_Status", some "Success")])) :=
  ⟨by decide, by decide,
    (index_entry_after_run [⟨"K", true, "2024-01-01"⟩] (saveIdOf ["Org ID"])
      "2025-06-01"
      [Row.mk [("Org ID", some "K"), ("Geocoding_Status", some "Success")]]
      (Row.mk [("Org ID", some "K"), ("Geocoding_Status", some "Success")])
      (by decide) (by decide)).1⟩

/-! ## Claims about adoptPrior -/

theorem upsert_keys {β : Type} (d : List (String × β)) (k K : String)
    (v : β) (hd : ∀ q ∈ d, q.1 ≠ K) (hk : k ≠ K) :
    ∀ q ∈ upsert d k v, q.1 ≠ K := by
  intro q hq
  unfold upsert at hq
  by_cases hf : (d.find? (fun p => p.1 == k)).isSome
  · rw [if_pos hf] at hq
    obtain ⟨p, hp, hpq⟩ := List.mem_map.mp hq
    by_cases hpk : p.1 == k
    · rw [if_pos hpk] at hpq
      rw [← hpq]
      exact hk
    · rw [if_neg hpk] at hpq
      exact hpq ▸ hd p hp
  · rw [if_neg hf] at hq
    rcases List.mem_append.mp hq with h1 | h2
    · exact hd q h1
    · have : q = (k, v) := by simpa using h2
      rw [this]
      exact hk

/-- If no prior Success row carries the key `K`, then `geocoded_dict` has
no entry under `K`. -/
theorem geocodedDict_no_key (gcols : List String) (prior : List Row)
    (K : String)
    (h : ∀ p ∈ prior,
      p.cell "Geocoding_Status" = some "Success" → create_org_id p ≠ K) :
    ∀ q ∈ geocodedDict gcols prior, q.1 ≠ K := by
  unfold geocodedDict
  have main : ∀ (l : List Row) (d : List (String × List (String × Cell))),
      (∀ p ∈ l, create_org_id p ≠ K) → (∀ q ∈ d, q.1 ≠ K) →
      ∀ q ∈ l.foldl (fun d p => upsert d (create_org_id p)
        ((gcols.filter (fun c => p.hasCol c)).map (fun c => (c, p.cell c))))
        d, q.1 ≠ K := by
    intro l
    induction l with
    | nil => intro d _ hd; exact hd
    | cons a t ih =>
      intro d hl hd
      rw [List.foldl_cons]
      exact ih _ (fun p hp => hl p (List.mem_cons_of_mem _ hp))
        (upsert_keys d _ K _ hd (hl a (List.mem_cons_self _ _)))
  apply main
  · intro p hp
    have hm := List.mem_filter.mp hp
    exact h p hm.1 (by simpa using hm.2)
  · intro q hq
    exact absurd hq (List.not_mem_nil q)

/-- C7: `adoptPrior` copies geocoding fields into a current row only from
a prior row with the same composite identity and status Success: in an
arbitrary table, a current row all of whose identity-matching prior rows
have a non-Success status (in particular a row matched by no prior row at
all) keeps exactly its contents at its position, whatever `adoptPrior`
does to the other rows. -/
theorem adoptPrior_untouched_without_success (gcols : List String)
    (prior cur : List Row) (i : Nat) (r : Row)
    (hget : cur.get? i = some r)
    (h : ∀ p ∈ prior,
      p.cell "Geocoding_Status" = some "Success" →
        create_org_id p ≠ create_org_id r) :
    (adoptPrior gcols prior cur).get? i = some r := by
  have hrow : adoptRow (geocodedDict gcols prior) r = r := by
    unfold adoptRow
    have hnone : (geocodedDict gcols prior).find?
        (fun p => p.1 == create_org_id r) = none := by
      apply List.find?_eq_none.mpr
      intro q hq hbeq
      exact geocodedDict_no_key gcols prior (create_org_id r) h q hq
        (by simpa using hbeq)
    rw [hnone]
  unfold adoptPrior
  rw [List.get?_map, hget, Option.map_some', hrow]

/-- The prior table of the C7 witness: a Success row matching the first
current row and a Failed row matching the second. -/
def priorW : List Row :=
  [Row.mk [(colName, some "Acme"), (colCity, some "Springfield"),
     ("Geocoding_Status", some "Success"), ("Latitude", some "38.7"),
     ("Longitude", some "-89.6"),
     ("Geocoding_Method", some "Free Service (Full)")],
   Row.mk [(colName, some "Beta"), (colCity, some "Shelbyville"),
     ("Geocoding_Status", some "Failed"), ("Latitude", some "0"),
     ("Longitude", some "0"), ("Geocoding_Method", some "Failed")]]

/-- The current table of the C7 witness: the first row has a Success
prior match (and is rewritten by `adoptPrior`), the second only a Failed
one. -/
def curW : List Row :=
  [Row.mk [(colName, some "Acme"), (colCity, some "Springfield")],
   Row.mk [(colName, some "Beta"), (colCity, some "Shelbyville")]]

theorem adoptPrior_untouched_without_success_witness :
    (curW.get? 1 =
      some (Row.mk [(colName, some "Beta"), (colCity, some "Shelbyville")])) ∧
    (∀ p ∈ priorW, p.cell "Geocoding_Status" = some "Success" →
      create_org_id p ≠ create_org_id
        (Row.mk [(colName, some "Beta"), (colCity, some "Shelbyville")])) ∧
    (adoptPrior ["Latitude", "Longitude", "Geocoding_Status",
          "Geocoding_Method"] priorW curW).get? 0 ≠ curW.get? 0 ∧
    (adoptPrior ["Latitude", "Longitude", "Geocoding_Status",
          "Geocoding_Method"] priorW curW).get? 1 =
      some (Row.mk [(colName, some "Beta"), (colCity, some "Shelbyville")]) :=
  ⟨by decide, by decide, by decide,
    adoptPrior_untouched_without_success
      ["Latitude", "Longitude", "Geocoding_Status", "Geocoding_Method"]
      priorW curW 1
      (Row.mk [(colName, some "Beta"), (colCity, some "Shelbyville")])
      (by decide) (by decide)⟩

/-! ## Claims about the inter-row delay -/

/-- A row of the C8 counterexample: complete geocoding data and a valid
zone, so it issues no network call at all. -/
def delayRow : Row :=
  Row.mk [(colName, some "Acme"), (colStreet, some "1 Main St"),
    (colCity, some "Springfield"), (colState, some "IL"),
    (colZip, some "62701"), ("Latitude", some "38.7"),
    ("Longitude", some "-89.6"), ("Geocoding_Status", some "Success"),
    ("Geocoding_Method", some "Free Service (Full)"),
    ("CWA_Region", some "ILZ051")]

def delayCols : List String :=
  [colName, colStreet, colCity, colState, colZip, "Latitude", "Longitude",
   "Geocoding_Status", "Geocoding_Method", "CWA_Region"]

/-- C8 counterexample: a non-final row that already carries complete
geocoding data — one of the claim's short-circuit categories — issues no
geocoding call and no zone lookup, yet still consumes the inter-row
delay. -/
theorem delay_consumed_without_network_counterexample :
    has_geocoding_data delayRow = true ∧
    processRow (α := Unit) delayCols [] false (fun _ => (none, "Failed"))
        delayRow 0 2 =
      { statusWrite := none, methodWrite := none, geocoderInvoked := false,
        zoneLookups := 0, slept := true } :=
  ⟨by decide, by decide⟩

/-- C8 (amended): the inter-row delay runs exactly when the row is not
the last one and is neither short-circuited by the index check nor by an
empty address nor failed by every geocoding strategy.  In particular the
index-skip and empty-address rows do skip the delay, but a row that
already carries complete geocoding data still consumes it, and a row
whose geocoding failed (which did issue network calls) does not. -/
theorem delay_characterization {α : Type} (cols already : List String)
    (enhanced : Bool) (resolver : String → Option α × String) (r : Row)
    (idx total : Nat) :
    (processRow cols already enhanced resolver r idx total).slept =
      (decide (idx + 1 < total) && !(indexSkip cols already r) &&
       !(create_full_address r == "" ||
         pyStripS (create_full_address r) == "") &&
       (has_geocoding_data r ||
        (resolver (create_full_address r)).1.isSome)) := by
  unfold processRow
  rcases h1 : indexSkip cols already r with _ | _
  · rcases h2 : (create_full_address r == "" ||
        pyStripS (create_full_address r) == "") with _ | _
    · rcases h3 : has_geocoding_data r with _ | _
      · rcases hres : resolver (create_full_address r) with ⟨_ | c, m⟩ <;>
          simp [h1, h2, h3, hres]
      · simp [h1, h2, h3]
    · simp [h1, h2]
  · simp [h1]

/-! ## Machinery for the idempotence analysis of `simplify_address`

The substitution passes are analysed through three notions:
* `noMatchM M s`: the matcher `M` matches nowhere in `s`, so the pass is
  the identity;
* `frag s`, the comma-free prefix of `s`: each tail matcher's result is
  determined by the comma-free prefix of its argument, and a pass with a
  comma-bounded matcher preserves the comma-free prefix — together these
  show a pass creates no new matches, of its own pattern or any other;
* `wsSingle s`: every whitespace run is a single space, which makes the
  whitespace collapse the identity. -/

/-- Unfolding `subAll`'s skip counter: skipping `k` characters processes
the `k`-dropped string. -/
theorem subAllSkip_eq_drop (M : Char → Str → Option Nat) (r : Str) :
    ∀ (s : Str) (k : Nat), subAllSkip M r s k = subAll M r (s.drop k) := by
  intro s
  induction s with
  | nil => intro k; cases k <;> rfl
  | cons c t ih =>
    intro k
    cases k with
    | zero => rfl
    | succ k' => simpa [subAllSkip] using ih k'

theorem subAll_nil (M : Char → Str → Option Nat) (r : Str) :
    subAll M r [] = [] := rfl

theorem subAll_cons_none {M : Char → Str → Option Nat} {r : Str} {c : Char}
    {s : Str} (h : M c s = none) :
    subAll M r (c :: s) = c :: subAll M r s := by
  show subAllSkip M r (c :: s) 0 = _
  simp [subAllSkip, h]
  rfl

theorem subAll_cons_some {M : Char → Str → Option Nat} {r : Str} {c : Char}
    {s : Str} {n : Nat} (h : M c s = some n) :
    subAll M r (c :: s) = r ++ subAll M r (s.drop n) := by
  show subAllSkip M r (c :: s) 0 = _
  simp [subAllSkip, h, subAllSkip_eq_drop]

/-- The matcher matches nowhere in `s`. -/
def noMatchM (M : Char → Str → Option Nat) : Str → Bool
  | [] => true
  | c :: s => (M c s).isNone && noMatchM M s

theorem noMatchM_cons {M : Char → Str → Option Nat} {c : Char} {s : Str} :
    noMatchM M (c :: s) = true ↔ M c s = none ∧ noMatchM M s = true := by
  simp [noMatchM, Option.isNone_iff_eq_none]

/-- A pass whose matcher matches nowhere is the identity. -/
theorem subAll_of_noMatch {M : Char → Str → Option Nat} (r : Str) :
    ∀ {s : Str}, noMatchM M s = true → subAll M r s = s := by
  intro s
  induction s with
  | nil => intro _; rfl
  | cons c t ih =>
    intro h
    obtain ⟨h1, h2⟩ := noMatchM_cons.mp h
    rw [subAll_cons_none h1, ih h2]

theorem noMatchM_tail {M : Char → Str → Option Nat} {c : Char} {s : Str}
    (h : noMatchM M (c :: s) = true) : noMatchM M s = true :=
  (noMatchM_cons.mp h).2

theorem noMatchM_drop {M : Char → Str → Option Nat} :
    ∀ {s : Str} (k : Nat), noMatchM M s = true →
      noMatchM M (s.drop k) = true := by
  intro s
  induction s with
  | nil => intro k h; simpa using h
  | cons c t ih =>
    intro k h
    cases k with
    | zero => exact h
    | succ k' => exact ih k' (noMatchM_tail h)

theorem noMatchM_dropWhile {M : Char → Str → Option Nat} (p : Char → Bool) :
    ∀ {s : Str}, noMatchM M s = true → noMatchM M (s.dropWhile p) = true := by
  intro s
  induction s with
  | nil => intro h; exact h
  | cons c t ih =>
    intro h
    rw [List.dropWhile_cons]
    by_cases hp : p c
    · rw [if_pos hp]; exact ih (noMatchM_tail h)
    · rw [if_neg hp]; exact h

/-! ### Runs and the comma-free prefix -/

theorem drop_length_takeWhile (p : Char → Bool) :
    ∀ s : Str, s.drop (s.takeWhile p).length = s.dropWhile p := by
  intro s
  induction s with
  | nil => rfl
  | cons c t ih =>
    by_cases hp : p c
    · simp [List.takeWhile_cons, List.dropWhile_cons, hp, ih]
    · simp [List.takeWhile_cons, List.dropWhile_cons, hp]

theorem takeWhile_takeWhile_of_imp {p q : Char → Bool}
    (hpq : ∀ c, p c = true → q c = true) :
    ∀ s : Str, (s.takeWhile q).takeWhile p = s.takeWhile p := by
  intro s
  induction s with
  | nil => rfl
  | cons c t ih =>
    by_cases hq : q c
    · by_cases hp : p c <;>
        simp [List.takeWhile_cons, hp, hq, ih]
    · have hp : p c = false := by
        cases hpc : p c
        · rfl
        · exact absurd (hpq c hpc) (by simp [hq])
      simp [List.takeWhile_cons, hp, hq]

theorem head_dropWhile_false (p : Char → Bool) :
    ∀ (s : Str) {c : Char}, (s.dropWhile p).head? = some c → p c = false := by
  intro s
  induction s with
  | nil => intro c h; cases h
  | cons a t ih =>
    intro c h
    rw [List.dropWhile_cons] at h
    by_cases hp : p a
    · rw [if_pos hp] at h; exact ih h
    · rw [if_neg hp] at h
      cases h
      simpa using hp

/-- `drop (wsRun s) s` is the whitespace-stripped tail. -/
theorem drop_wsRun (s : Str) : s.drop (wsRun s) = s.dropWhile pws :=
  drop_length_takeWhile pws s

theorem drop_nonCommaRun (s : Str) :
    s.drop (nonCommaRun s) = s.dropWhile (fun c => !(c = ',')) :=
  drop_length_takeWhile _ s

theorem frag_cons_of_ne {c : Char} (h : ¬(c = ',')) (s : Str) :
    frag (c :: s) = c :: frag s := by
  simp [frag, List.takeWhile_cons, h]

theorem frag_cons_comma (s : Str) : frag (',' :: s) = [] := by
  simp [frag, List.takeWhile_cons]

theorem frag_nil : frag [] = [] := rfl

/-- Characters of the comma-free prefix are not commas. -/
theorem mem_frag_ne_comma : ∀ {s : Str} {c : Char}, c ∈ frag s → ¬(c = ',') := by
  intro s
  induction s with
  | nil => intro c h; cases h
  | cons a t ih =>
    intro c h
    by_cases ha : a = ','
    · rw [ha, frag_cons_comma] at h; cases h
    · rw [frag_cons_of_ne ha] at h
      rcases List.mem_cons.mp h with rfl | h2
      · exact ha
      · exact ih h2

/-- After the comma-free prefix comes a comma or the end. -/
theorem head_drop_frag (s : Str) :
    s.dropWhile (fun c => !(c = ',')) = [] ∨
      (s.dropWhile (fun c => !(c = ','))).head? = some ',' := by
  rcases hh : (s.dropWhile (fun c => !(c = ','))).head? with _ | c
  · left
    cases hd : s.dropWhile (fun c => !(c = ',')) with
    | nil => rfl
    | cons x xs => rw [hd] at hh; cases hh
  · right
    have hc : c = ',' := by
      simpa using head_dropWhile_false (fun c => !(c = ',')) s hh
    rw [hc]

theorem takeWhile_idem (p : Char → Bool) :
    ∀ s : Str, (s.takeWhile p).takeWhile p = s.takeWhile p :=
  takeWhile_takeWhile_of_imp (fun _ h => h)

theorem frag_frag (s : Str) : frag (frag s) = frag s := takeWhile_idem _ s

theorem nonCommaRun_frag (s : Str) : nonCommaRun (frag s) = nonCommaRun s := by
  unfold nonCommaRun
  rw [show frag (frag s) = frag s from frag_frag s]

theorem pws_ne_comma : ∀ c, pws c = true → (!(c = ',')) = true := by
  intro c h
  by_cases hc : c = ','
  · rw [hc] at h
    exact absurd h (by decide)
  · simp [hc]

theorem isDigitA_ne_comma : ∀ c, isDigitA c = true → (!(c = ',')) = true := by
  intro c h
  by_cases hc : c = ','
  · rw [hc] at h
    exact absurd h (by decide)
  · simp [hc]

theorem wsRun_frag (s : Str) : wsRun (frag s) = wsRun s := by
  unfold wsRun frag
  rw [takeWhile_takeWhile_of_imp pws_ne_comma]

theorem digitRun_frag (s : Str) : digitRun (frag s) = digitRun s := by
  unfold digitRun frag
  rw [takeWhile_takeWhile_of_imp isDigitA_ne_comma]

theorem wsRun_le_frag (s : Str) : wsRun s ≤ (frag s).length := by
  rw [← wsRun_frag]
  exact (List.takeWhile_sublist _).length_le

theorem digitRun_le_frag (s : Str) : digitRun s ≤ (frag s).length := by
  rw [← digitRun_frag]
  exact (List.takeWhile_sublist _).length_le

/-- `frag` commutes with dropping inside the comma-free prefix. -/
theorem frag_drop : ∀ (s : Str) (k : Nat), k ≤ (frag s).length →
    frag (s.drop k) = (frag s).drop k := by
  intro s
  induction s with
  | nil => intro k _; simp [frag]
  | cons c t ih =>
    intro k hk
    cases k with
    | zero => simp
    | succ k' =>
      by_cases hc : c = ','
      · rw [hc, frag_cons_comma] at hk
        exact absurd hk (by simp)
      · rw [frag_cons_of_ne hc] at hk ⊢
        simp only [List.length_cons, Nat.succ_le_succ_iff] at hk
        simpa using ih k' hk

/-- `stripCI` with a comma-free keyword commutes with `frag`. -/
theorem stripCI_frag : ∀ (kw : Str), (∀ k ∈ kw, ¬(k = ',')) →
    ∀ (s : Str), stripCI kw (frag s) = Option.map frag (stripCI kw s) := by
  intro kw
  induction kw with
  | nil => intro _ s; rfl
  | cons k ks ih =>
    intro hkw s
    cases s with
    | nil => rfl
    | cons c t =>
      by_cases hc : c = ','
      · rw [hc, frag_cons_comma]
        have hk : ¬(k = ',') := hkw k (List.mem_cons_self _ _)
        have hcond : ¬(lowC ',' = k) := by
          intro h
          exact hk (by rw [← h]; rfl)
        simp [stripCI, hcond]
      · rw [frag_cons_of_ne hc]
        by_cases hl : lowC c = k
        · simp only [stripCI, hl, if_true]
          exact ih (fun x hx => hkw x (List.mem_cons_of_mem _ hx)) t
        · simp [stripCI, hl]

/-- `stripCI` consumes exactly the keyword's length. -/
theorem stripCI_eq_drop : ∀ (kw s r : Str), stripCI kw s = some r →
    r = s.drop kw.length := by
  intro kw
  induction kw with
  | nil =>
    intro s r h
    cases h
    simp
  | cons k ks ih =>
    intro s r h
    cases s with
    | nil => cases h
    | cons c t =>
      by_cases hl : lowC c = k
      · rw [show stripCI (k :: ks) (c :: t) = stripCI ks t by
          simp [stripCI, hl]] at h
        simpa using ih t r h
      · rw [show stripCI (k :: ks) (c :: t) = none by simp [stripCI, hl]] at h
        cases h

theorem suffixSpec_frag (s : Str) : suffixSpec (frag s) = suffixSpec s := by
  unfold suffixSpec
  simp only [wsRun_frag]
  rw [← frag_drop s (wsRun s) (wsRun_le_frag s), nonCommaRun_frag]

theorem stripOrd_comma_first (b : Char) (r : Str) :
    stripOrd (',' :: b :: r) = none := by
  have h1 : decide (lowC ',' = 's') = false := by decide
  have h2 : decide (lowC ',' = 'n') = false := by decide
  have h3 : decide (lowC ',' = 'r') = false := by decide
  have h4 : decide (lowC ',' = 't') = false := by decide
  simp [stripOrd, h1, h2, h3, h4]

theorem stripOrd_comma_second (a : Char) (r : Str) :
    stripOrd (a :: ',' :: r) = none := by
  have h1 : decide (lowC ',' = 't') = false := by decide
  have h2 : decide (lowC ',' = 'd') = false := by decide
  have h3 : decide (lowC ',' = 'h') = false := by decide
  simp [stripOrd, h1, h2, h3]

theorem stripOrd_frag (s : Str) :
    stripOrd (frag s) = Option.map frag (stripOrd s) := by
  cases s with
  | nil => rfl
  | cons a t =>
    by_cases ha : a = ','
    · subst ha
      rw [frag_cons_comma]
      cases t with
      | nil => rfl
      | cons b r => rw [stripOrd_comma_first]; rfl
    · rw [frag_cons_of_ne ha]
      cases t with
      | nil => simp [frag, stripOrd]
      | cons b r =>
        by_cases hb : b = ','
        · subst hb
          rw [frag_cons_comma, stripOrd_comma_second]
          rfl
        · rw [frag_cons_of_ne hb]
          by_cases hcond : ((lowC a = 's' && lowC b = 't') ||
              (lowC a = 'n' && lowC b = 'd') ||
              (lowC a = 'r' && lowC b = 'd') ||
              (lowC a = 't' && lowC b = 'h')) = true
          · simp [stripOrd, hcond]
          · simp [stripOrd, hcond]

/-! ### The tail matchers are determined by the comma-free prefix -/

/-- On a tail that does not start with a dot, the optional-dot branch is
never taken. -/
theorem dotSuffix_not_dot {c : Char} (hc : ¬(c = '.')) (dot : Bool)
    (r2 : Str) : dotSuffix dot (c :: r2) = suffixSpec (c :: r2) := by
  cases dot with
  | false => rfl
  | true =>
    unfold dotSuffix
    split
    · next r2x heq =>
      injection heq with h1 h2
      exact absurd h1 hc
    · rfl

theorem dotSuffix_frag (dot : Bool) (rest : Str) :
    dotSuffix dot (frag rest) = dotSuffix dot rest := by
  cases dot with
  | false =>
    show suffixSpec (frag rest) = suffixSpec rest
    exact suffixSpec_frag rest
  | true =>
    rcases rest with _ | ⟨c, r2⟩
    · rfl
    · by_cases hdot : c = '.'
      · subst hdot
        rw [frag_cons_of_ne (by decide) r2]
        show (match suffixSpec (frag r2) with
          | some m => some (1 + m) | none => none) =
          (match suffixSpec r2 with
          | some m => some (1 + m) | none => none)
        rw [suffixSpec_frag]
      · by_cases hc : c = ','
        · subst hc
          rw [frag_cons_comma, dotSuffix_not_dot (by decide)]
          show suffixSpec [] = suffixSpec (',' :: r2)
          have h2 := suffixSpec_frag (',' :: r2)
          rw [frag_cons_comma] at h2
          exact h2
        · rw [frag_cons_of_ne hc r2, dotSuffix_not_dot hdot,
            dotSuffix_not_dot hdot, ← frag_cons_of_ne hc r2]
          exact suffixSpec_frag _

theorem matchKwTail_frag (kw : Str) (dot : Bool)
    (hkw : ∀ k ∈ kw, ¬(k = ',')) (s : Str) :
    matchKwTail kw dot (frag s) = matchKwTail kw dot s := by
  simp only [matchKwTail, wsRun_frag]
  rw [← frag_drop s (wsRun s) (wsRun_le_frag s), stripCI_frag kw hkw]
  rcases hst : stripCI kw (s.drop (wsRun s)) with _ | rest
  · rfl
  · show (match dotSuffix dot (frag rest) with
      | some m => some (wsRun s + kw.length + m) | none => none) =
      (match dotSuffix dot rest with
      | some m => some (wsRun s + kw.length + m) | none => none)
    rw [dotSuffix_frag]

theorem hashAfter_ne {c : Char} (hc : ¬(c = '#')) (r : Str) :
    hashAfter (c :: r) = none := by
  unfold hashAfter
  split
  · next r2 heq =>
    injection heq with h1 _
    exact absurd h1 hc
  · rfl

theorem hashAfter_frag (x : Str) : hashAfter (frag x) = hashAfter x := by
  cases x with
  | nil => rfl
  | cons c r =>
    by_cases hc : c = ','
    · subst hc
      rw [frag_cons_comma]
      rfl
    · rw [frag_cons_of_ne hc]
      by_cases hh : c = '#'
      · subst hh
        simp only [hashAfter, nonCommaRun_frag]
      · rw [hashAfter_ne hh, hashAfter_ne hh]

theorem matchHashTail_frag (s : Str) :
    matchHashTail (frag s) = matchHashTail s := by
  simp only [matchHashTail, wsRun_frag]
  rw [← frag_drop s (wsRun s) (wsRun_le_frag s), hashAfter_frag]

theorem matchFloorOrdTail_frag (s : Str) :
    matchFloorOrdTail (frag s) = matchFloorOrdTail s := by
  simp only [matchFloorOrdTail, wsRun_frag]
  rw [← frag_drop s (wsRun s) (wsRun_le_frag s)]
  generalize s.drop (wsRun s) = s1
  simp only [digitRun_frag]
  by_cases hd : digitRun s1 = 0
  · simp [hd]
  · simp only [hd, if_false]
    rw [← frag_drop s1 (digitRun s1) (digitRun_le_frag s1), stripOrd_frag]
    rcases ho : stripOrd (s1.drop (digitRun s1)) with _ | rest
    · rfl
    · simp only [Option.map_some', wsRun_frag]
      by_cases hu : wsRun rest = 0
      · simp [hu]
      · simp only [hu, if_false]
        rw [← frag_drop rest (wsRun rest) (wsRun_le_frag rest),
          stripCI_frag _ (by decide)]
        rcases hf : stripCI ['f', 'l', 'o', 'o', 'r']
            (rest.drop (wsRun rest)) with _ | z
        · rfl
        · rfl

/-! ### The matchers stop right before a comma or at the end -/

theorem nonCommaRun_zero {y : Str} (h : nonCommaRun y = 0) :
    y = [] ∨ y.head? = some ',' := by
  cases y with
  | nil => left; rfl
  | cons c r =>
    right
    unfold nonCommaRun frag at h
    rw [List.takeWhile_cons] at h
    by_cases hc : (!(c = ',')) = true
    · rw [if_pos hc] at h
      simp at h
    · have hcc : c = ',' := by simpa using hc
      rw [hcc]
      rfl

theorem bounded_suffixSpec {x : Str} {m : Nat} (h : suffixSpec x = some m) :
    x.drop m = [] ∨ (x.drop m).head? = some ',' := by
  simp only [suffixSpec] at h
  by_cases hu : wsRun x = 0
  · simp [hu] at h
  · simp only [hu, if_false] at h
    by_cases ht : 0 < nonCommaRun (x.drop (wsRun x))
    · rw [if_pos ht] at h
      injection h with hm
      subst hm
      have hsplit : x.drop (wsRun x + nonCommaRun (x.drop (wsRun x))) =
          (x.drop (wsRun x)).drop (nonCommaRun (x.drop (wsRun x))) := by
        rw [List.drop_drop]
      rw [hsplit, drop_nonCommaRun]
      exact head_drop_frag _
    · rw [if_neg ht] at h
      by_cases h2 : 2 ≤ wsRun x
      · rw [if_pos h2] at h
        injection h with hm
        subst hm
        rw [drop_wsRun]
        apply nonCommaRun_zero
        rw [← drop_wsRun]
        omega
      · rw [if_neg h2] at h
        cases h

theorem bounded_dotSuffix {dot : Bool} {rest : Str} {m : Nat}
    (h : dotSuffix dot rest = some m) :
    rest.drop m = [] ∨ (rest.drop m).head? = some ',' := by
  cases dot with
  | false => exact bounded_suffixSpec h
  | true =>
    rcases rest with _ | ⟨c, r2⟩
    · exact bounded_suffixSpec h
    · by_cases hc : c = '.'
      · subst hc
        simp only [dotSuffix] at h
        rcases hs : suffixSpec r2 with _ | mm
        · rw [hs] at h
          cases h
        · rw [hs] at h
          injection h with hm
          subst hm
          rw [show ('.' :: r2).drop (1 + mm) = r2.drop mm by
            rw [Nat.add_comm]
            rfl]
          exact bounded_suffixSpec hs
      · rw [dotSuffix_not_dot hc] at h
        exact bounded_suffixSpec h

theorem bounded_kwTail {kw : Str} {dot : Bool} {s : Str} {n : Nat}
    (h : matchKwTail kw dot s = some n) :
    s.drop n = [] ∨ (s.drop n).head? = some ',' := by
  rcases hst : stripCI kw (s.drop (wsRun s)) with _ | rest
  · simp only [matchKwTail, hst] at h
    cases h
  · simp only [matchKwTail, hst] at h
    rcases hd : dotSuffix dot rest with _ | m
    · rw [hd] at h
      cases h
    · rw [hd] at h
      injection h with hn
      subst hn
      have hrest : rest = (s.drop (wsRun s)).drop kw.length :=
        stripCI_eq_drop _ _ _ hst
      have hdrop : rest.drop m = s.drop (wsRun s + kw.length + m) := by
        rw [hrest, List.drop_drop, List.drop_drop]
        congr 1
        omega
      rw [← hdrop]
      exact bounded_dotSuffix hd

theorem bounded_hashAfter {x : Str} {m : Nat} (h : hashAfter x = some m) :
    x.drop m = [] ∨ (x.drop m).head? = some ',' := by
  cases x with
  | nil => cases h
  | cons c r =>
    by_cases hc : c = '#'
    · subst hc
      simp only [hashAfter] at h
      by_cases ht : 0 < nonCommaRun r
      · rw [if_pos ht] at h
        injection h with hm
        subst hm
        rw [show ('#' :: r).drop (1 + nonCommaRun r) = r.drop (nonCommaRun r) by
          rw [Nat.add_comm]
          rfl]
        rw [drop_nonCommaRun]
        exact head_drop_frag r
      · rw [if_neg ht] at h
        cases h
    · rw [hashAfter_ne hc] at h
      cases h

theorem bounded_hashTail {s : Str} {n : Nat} (h : matchHashTail s = some n) :
    s.drop n = [] ∨ (s.drop n).head? = some ',' := by
  rcases hx : hashAfter (s.drop (wsRun s)) with _ | m
  · simp only [matchHashTail, hx] at h
    cases h
  · simp only [matchHashTail, hx] at h
    injection h with hn
    subst hn
    have hdrop : (s.drop (wsRun s)).drop m = s.drop (wsRun s + m) := by
      rw [List.drop_drop]
    rw [← hdrop]
    exact bounded_hashAfter hx

end Geo

/-! ### Substitution passes of comma-anchored patterns -/

namespace Geo

theorem commaM_ne {T : Str → Option Nat} {c : Char} (hc : ¬(c = ','))
    (s : Str) : commaM T c s = none := by
  simp [commaM, hc]

theorem commaM_comma (T : Str → Option Nat) (s : Str) :
    commaM T ',' s = T s := by
  simp [commaM]

theorem pass_nil (T : Str → Option Nat) : pass T [] = [] := rfl

theorem pass_cons_ne {T : Str → Option Nat} {c : Char} (hc : ¬(c = ','))
    (s : Str) : pass T (c :: s) = c :: pass T s :=
  subAll_cons_none (commaM_ne hc s)

theorem pass_cons_none {T : Str → Option Nat} {s : Str} (h : T s = none) :
    pass T (',' :: s) = ',' :: pass T s :=
  subAll_cons_none (by rw [commaM_comma, h])

theorem pass_cons_some {T : Str → Option Nat} {s : Str} {n : Nat}
    (h : T s = some n) : pass T (',' :: s) = pass T (s.drop n) := by
  have hh : commaM T ',' s = some n := by rw [commaM_comma, h]
  simpa [pass] using subAll_cons_some (r := ([] : Str)) hh

/-- A matcher that always stops right before a comma or at the end. -/
def BoundedT (T : Str → Option Nat) : Prop :=
  ∀ {s : Str} {n : Nat}, T s = some n →
    s.drop n = [] ∨ (s.drop n).head? = some ','

/-- A pass with a comma-bounded matcher preserves the comma-free
prefix. -/
theorem frag_pass {T : Str → Option Nat} (hbT : BoundedT T) :
    ∀ s : Str, frag (pass T s) = frag s := by
  have main : ∀ (L : Nat) (s : Str), s.length ≤ L →
      frag (pass T s) = frag s := by
    intro L
    induction L with
    | zero =>
      intro s hs
      have : s = [] := List.length_eq_zero.mp (Nat.le_zero.mp hs)
      subst this
      rfl
    | succ L ih =>
      intro s hs
      cases s with
      | nil => rfl
      | cons c t =>
        rw [List.length_cons, Nat.succ_le_succ_iff] at hs
        by_cases hc : c = ','
        · subst hc
          rcases hT : T t with _ | n
          · rw [pass_cons_none hT, frag_cons_comma, frag_cons_comma]
          · rw [pass_cons_some hT, frag_cons_comma]
            have hlen : (t.drop n).length ≤ L := by
              rw [List.length_drop]
              omega
            rw [ih _ hlen]
            rcases hbT hT with h1 | h1
            · rw [h1]
              rfl
            · cases hdn : t.drop n with
              | nil => rfl
              | cons d r =>
                rw [hdn] at h1
                have hd : d = ',' := by simpa using h1
                subst hd
                exact frag_cons_comma r
        · rw [pass_cons_ne hc, frag_cons_of_ne hc, frag_cons_of_ne hc]
          congr 1
          exact ih t hs
  exact fun s => main s.length s le_rfl

/-- A pass with a comma-bounded matcher creates no match of any
prefix-determined matcher. -/
theorem noMatch_pass_pres {T P : Str → Option Nat} (hbT : BoundedT T)
    (hPfrag : ∀ s, P (frag s) = P s) :
    ∀ s : Str, noMatchM (commaM P) s = true →
      noMatchM (commaM P) (pass T s) = true := by
  have main : ∀ (L : Nat) (s : Str), s.length ≤ L →
      noMatchM (commaM P) s = true →
      noMatchM (commaM P) (pass T s) = true := by
    intro L
    induction L with
    | zero =>
      intro s hs h
      have : s = [] := List.length_eq_zero.mp (Nat.le_zero.mp hs)
      subst this
      exact h
    | succ L ih =>
      intro s hs h
      cases s with
      | nil => exact h
      | cons c t =>
        rw [List.length_cons, Nat.succ_le_succ_iff] at hs
        by_cases hc : c = ','
        · subst hc
          rcases hT : T t with _ | n
          · rw [pass_cons_none hT]
            refine noMatchM_cons.mpr ⟨?_, ih t hs (noMatchM_tail h)⟩
            rw [commaM_comma]
            rw [← hPfrag (pass T t), frag_pass hbT, hPfrag]
            have := (noMatchM_cons.mp h).1
            rwa [commaM_comma] at this
          · rw [pass_cons_some hT]
            have hlen : (t.drop n).length ≤ L := by
              rw [List.length_drop]
              omega
            exact ih _ hlen (noMatchM_drop n (noMatchM_tail h))
        · rw [pass_cons_ne hc]
          exact noMatchM_cons.mpr
            ⟨by rw [commaM_ne hc], ih t hs (noMatchM_tail h)⟩
  exact fun s => main s.length s le_rfl

/-- After a pass with a comma-bounded, prefix-determined matcher, that
matcher matches nowhere in the output. -/
theorem noMatch_pass_self {T : Str → Option Nat} (hbT : BoundedT T)
    (hTfrag : ∀ s, T (frag s) = T s) :
    ∀ s : Str, noMatchM (commaM T) (pass T s) = true := by
  have main : ∀ (L : Nat) (s : Str), s.length ≤ L →
      noMatchM (commaM T) (pass T s) = true := by
    intro L
    induction L with
    | zero =>
      intro s hs
      have : s = [] := List.length_eq_zero.mp (Nat.le_zero.mp hs)
      subst this
      rfl
    | succ L ih =>
      intro s hs
      cases s with
      | nil => rfl
      | cons c t =>
        rw [List.length_cons, Nat.succ_le_succ_iff] at hs
        by_cases hc : c = ','
        · subst hc
          rcases hT : T t with _ | n
          · rw [pass_cons_none hT]
            refine noMatchM_cons.mpr ⟨?_, ih t hs⟩
            rw [commaM_comma, ← hTfrag (pass T t), frag_pass hbT, hTfrag]
            exact hT
          · rw [pass_cons_some hT]
            have hlen : (t.drop n).length ≤ L := by
              rw [List.length_drop]
              omega
            exact ih _ hlen
        · rw [pass_cons_ne hc]
          exact noMatchM_cons.mpr ⟨by rw [commaM_ne hc], ih t hs⟩
  exact fun s => main s.length s le_rfl

/-- A comma-free string is untouched by any comma-anchored pass. -/
theorem pass_no_comma {T : Str → Option Nat} :
    ∀ {s : Str}, (∀ c ∈ s, ¬(c = ',')) → pass T s = s := by
  intro s
  induction s with
  | nil => intro _; rfl
  | cons c t ih =>
    intro h
    rw [pass_cons_ne (h c (List.mem_cons_self _ _)),
      ih (fun x hx => h x (List.mem_cons_of_mem _ hx))]

end Geo

namespace Geo

/-! ### Whitespace-separated comma pairs -/

/-- No two commas of `s` are separated by only whitespace (equivalently,
the collapse pattern `,\s*,` matches nowhere). -/
def noWsPair (s : Str) : Bool := noMatchM (commaM matchCCTail) s

theorem matchCCTail_none_iff {s : Str} :
    matchCCTail s = none ↔ ¬((s.dropWhile pws).head? = some ',') := by
  simp only [matchCCTail, drop_wsRun]
  by_cases h : (s.dropWhile pws).head? = some ',' <;> simp [h]

theorem dropWhile_takeWhile_comm {p q : Char → Bool}
    (hpq : ∀ c, p c = true → q c = true) :
    ∀ s : Str, (s.takeWhile q).dropWhile p = (s.dropWhile p).takeWhile q := by
  intro s
  induction s with
  | nil => rfl
  | cons c t ih =>
    by_cases hp : p c
    · have hq : q c := hpq c hp
      simp only [List.takeWhile_cons, List.dropWhile_cons, hp, hq, if_true]
      exact ih
    · by_cases hq : q c <;>
        simp [List.takeWhile_cons, List.dropWhile_cons, hp, hq]

theorem dropWhile_pws_frag (t : Str) :
    (frag t).dropWhile pws = frag (t.dropWhile pws) :=
  dropWhile_takeWhile_comm pws_ne_comma t

theorem head_of_frag_cons {x y : Str} {c : Char} (h : frag x = c :: y) :
    x.head? = some c := by
  cases x with
  | nil => cases h
  | cons d r =>
    by_cases hd : d = ','
    · subst hd
      rw [frag_cons_comma] at h
      cases h
    · rw [frag_cons_of_ne hd] at h
      injection h with h1 _
      rw [h1]
      rfl

/-- A pass with a comma-bounded matcher creates no whitespace-separated
comma pair. -/
theorem noWsPair_pass {T : Str → Option Nat} (hbT : BoundedT T) :
    ∀ s : Str, noWsPair s = true → noWsPair (pass T s) = true := by
  have main : ∀ (L : Nat) (s : Str), s.length ≤ L → noWsPair s = true →
      noWsPair (pass T s) = true := by
    intro L
    induction L with
    | zero =>
      intro s hs h
      have : s = [] := List.length_eq_zero.mp (Nat.le_zero.mp hs)
      subst this
      exact h
    | succ L ih =>
      intro s hs h
      cases s with
      | nil => exact h
      | cons c t =>
        rw [List.length_cons, Nat.succ_le_succ_iff] at hs
        by_cases hc : c = ','
        · subst hc
          rcases hT : T t with _ | n
          · rw [pass_cons_none hT]
            refine noMatchM_cons.mpr ⟨?_, ih t hs (noMatchM_tail h)⟩
            rw [commaM_comma, matchCCTail_none_iff]
            have hhead : matchCCTail t = none := by
              have := (noMatchM_cons.mp h).1
              rwa [commaM_comma] at this
            rw [matchCCTail_none_iff] at hhead
            rcases hfw : t.dropWhile pws with _ | ⟨d, r⟩
            · -- t is all whitespace, hence comma-free: the pass is the identity
              have hall : ∀ x ∈ t, pws x = true :=
                List.dropWhile_eq_nil_iff.mp hfw
              rw [pass_no_comma (fun x hx => by
                have := pws_ne_comma x (hall x hx)
                simpa using this)]
              rw [hfw]
              simp
            · have hd : ¬(d = ',') := by
                intro hdc
                exact hhead (by simp [hfw, hdc])
              -- the first non-whitespace character sits in the comma-free
              -- prefix, which the pass preserves
              have hfragt : frag (t.dropWhile pws) = d :: frag r := by
                rw [hfw, frag_cons_of_ne hd]
              have h2 : frag ((pass T t).dropWhile pws) = d :: frag r := by
                rw [← dropWhile_pws_frag, frag_pass hbT, dropWhile_pws_frag,
                  hfragt]
              intro hcontra
              have := head_of_frag_cons h2
              rw [this] at hcontra
              exact hd (by injection hcontra)
          · rw [pass_cons_some hT]
            have hlen : (t.drop n).length ≤ L := by
              rw [List.length_drop]
              omega
            exact ih _ hlen (noMatchM_drop n (noMatchM_tail h))
        · rw [pass_cons_ne hc]
          exact noMatchM_cons.mpr
            ⟨by rw [commaM_ne hc], ih t hs (noMatchM_tail h)⟩
  exact fun s => main s.length s le_rfl

/-! ### The ordinal-floor pattern -/

/-- Does `\d+(st|nd|rd|th)\s+Floor` match at the head of `s`? -/
def ordFloorAt (s : Str) : Bool :=
  decide (0 < digitRun s) &&
    (match stripOrd (s.drop (digitRun s)) with
     | some rest =>
       decide (0 < wsRun rest) &&
         (stripCI ['f', 'l', 'o', 'o', 'r'] (rest.drop (wsRun rest))).isSome
     | none => false)

/-- `\d+(st|nd|rd|th)\s+Floor` matches at no position of `s`. -/
def noOrdFloor : Str → Bool
  | [] => true
  | c :: s => !(ordFloorAt (c :: s)) && noOrdFloor s

theorem noOrdFloor_head : ∀ {s : Str}, noOrdFloor s = true →
    ordFloorAt s = false := by
  intro s h
  cases s with
  | nil => rfl
  | cons c t =>
    have := (Bool.and_eq_true _ _).mp h
    simpa using this.1

theorem noOrdFloor_tail {c : Char} {s : Str}
    (h : noOrdFloor (c :: s) = true) : noOrdFloor s = true :=
  ((Bool.and_eq_true _ _).mp h).2

theorem noOrdFloor_drop : ∀ {s : Str} (k : Nat), noOrdFloor s = true →
    noOrdFloor (s.drop k) = true := by
  intro s
  induction s with
  | nil => intro k h; simpa using h
  | cons c t ih =>
    intro k h
    cases k with
    | zero => exact h
    | succ k' => exact ih k' (noOrdFloor_tail h)

theorem noOrdFloor_dropWhile (p : Char → Bool) :
    ∀ {s : Str}, noOrdFloor s = true → noOrdFloor (s.dropWhile p) = true := by
  intro s
  induction s with
  | nil => intro h; exact h
  | cons c t ih =>
    intro h
    rw [List.dropWhile_cons]
    by_cases hp : p c
    · rw [if_pos hp]
      exact ih (noOrdFloor_tail h)
    · rw [if_neg hp]
      exact h

theorem ordFloorAt_frag (s : Str) : ordFloorAt (frag s) = ordFloorAt s := by
  simp only [ordFloorAt, digitRun_frag]
  by_cases hd : 0 < digitRun s
  · simp only [decide_eq_true hd, Bool.true_and]
    rw [← frag_drop s (digitRun s) (digitRun_le_frag s), stripOrd_frag]
    rcases ho : stripOrd (s.drop (digitRun s)) with _ | rest
    · rfl
    · simp only [Option.map_some', wsRun_frag]
      by_cases hu : 0 < wsRun rest
      · simp only [decide_eq_true hu, Bool.true_and]
        rw [← frag_drop rest (wsRun rest) (wsRun_le_frag rest),
          stripCI_frag _ (by decide)]
        rcases hf : stripCI ['f', 'l', 'o', 'o', 'r']
            (rest.drop (wsRun rest)) with _ | z <;> simp
      · simp [hu]
  · simp [hd]

theorem ordFloorAt_comma (x : Str) : ordFloorAt (',' :: x) = false := by
  have hd : digitRun (',' :: x) = 0 := by
    simp [digitRun, List.takeWhile_cons, isDigitA]
  simp [ordFloorAt, hd]

theorem matchFloorOrdTail_isSome (t : Str) :
    (matchFloorOrdTail t).isSome = ordFloorAt (t.dropWhile pws) := by
  simp only [matchFloorOrdTail, ordFloorAt, drop_wsRun]
  by_cases hd : digitRun (t.dropWhile pws) = 0
  · simp [hd]
  · have hd' : 0 < digitRun (t.dropWhile pws) := Nat.pos_of_ne_zero hd
    simp only [hd, if_false, decide_eq_true hd', Bool.true_and]
    rcases ho : stripOrd ((t.dropWhile pws).drop
        (digitRun (t.dropWhile pws))) with _ | rest
    · rfl
    · by_cases hu : wsRun rest = 0
      · simp [hu]
      · have hu' : 0 < wsRun rest := Nat.pos_of_ne_zero hu
        simp only [hu, if_false, decide_eq_true hu', Bool.true_and]
        rcases hf : stripCI ['f', 'l', 'o', 'o', 'r']
            (rest.dropWhile pws) with _ | z <;> simp [hf]

/-- When no position carries the ordinal-floor pattern, its pass matches
nowhere (and hence is the identity). -/
theorem noMatch_floorOrd_of_noOrdFloor :
    ∀ {s : Str}, noOrdFloor s = true →
      noMatchM (commaM matchFloorOrdTail) s = true := by
  intro s
  induction s with
  | nil => intro _; rfl
  | cons c t ih =>
    intro h
    refine noMatchM_cons.mpr ⟨?_, ih (noOrdFloor_tail h)⟩
    by_cases hc : c = ','
    · subst hc
      rw [commaM_comma]
      have hof : ordFloorAt (t.dropWhile pws) = false :=
        noOrdFloor_head (noOrdFloor_dropWhile pws (noOrdFloor_tail h))
      have := matchFloorOrdTail_isSome t
      rw [hof] at this
      exact Option.not_isSome_iff_eq_none.mp (by rw [this]; simp)
    · rw [commaM_ne hc]

/-- A pass with a comma-bounded matcher creates no occurrence of the
ordinal-floor pattern. -/
theorem noOrdFloor_pass {T : Str → Option Nat} (hbT : BoundedT T) :
    ∀ s : Str, noOrdFloor s = true → noOrdFloor (pass T s) = true := by
  have main : ∀ (L : Nat) (s : Str), s.length ≤ L → noOrdFloor s = true →
      noOrdFloor (pass T s) = true := by
    intro L
    induction L with
    | zero =>
      intro s hs h
      have : s = [] := List.length_eq_zero.mp (Nat.le_zero.mp hs)
      subst this
      exact h
    | succ L ih =>
      intro s hs h
      cases s with
      | nil => exact h
      | cons c t =>
        rw [List.length_cons, Nat.succ_le_succ_iff] at hs
        by_cases hc : c = ','
        · subst hc
          rcases hT : T t with _ | n
          · rw [pass_cons_none hT]
            show (!(ordFloorAt (',' :: pass T t)) &&
              noOrdFloor (pass T t)) = true
            rw [ordFloorAt_comma]
            simpa using ih t hs (noOrdFloor_tail h)
          · rw [pass_cons_some hT]
            have hlen : (t.drop n).length ≤ L := by
              rw [List.length_drop]
              omega
            exact ih _ hlen (noOrdFloor_drop n (noOrdFloor_tail h))
        · rw [pass_cons_ne hc]
          show (!(ordFloorAt (c :: pass T t)) && noOrdFloor (pass T t)) = true
          have hhead : ordFloorAt (c :: pass T t) = false := by
            rw [← ordFloorAt_frag, frag_cons_of_ne hc, frag_pass hbT,
              ← frag_cons_of_ne hc, ordFloorAt_frag]
            exact noOrdFloor_head h
          rw [hhead]
          simpa using ih t hs (noOrdFloor_tail h)
  exact fun s => main s.length s le_rfl

end Geo

namespace Geo

/-! ### The whitespace collapse -/

theorem wsM_none {c : Char} (hc : pws c = false) (s : Str) :
    wsM c s = none := by
  simp [wsM, hc]

theorem wsM_some {c : Char} (hc : pws c = true) (s : Str) :
    wsM c s = some (wsRun s) := by
  simp [wsM, hc]

theorem wsCollapse_nil : wsCollapse [] = [] := rfl

theorem wsCollapse_cons_nonws {c : Char} {s : Str} (hc : pws c = false) :
    wsCollapse (c :: s) = c :: wsCollapse s :=
  subAll_cons_none (wsM_none hc s)

theorem wsCollapse_cons_ws {c : Char} {s : Str} (hc : pws c = true) :
    wsCollapse (c :: s) = ' ' :: wsCollapse (s.dropWhile pws) := by
  have h := subAll_cons_some (r := [' ']) (wsM_some hc s)
  rw [drop_wsRun] at h
  simpa [wsCollapse] using h

theorem head_wsCollapse_dropWhile {x : Str} {d : Char}
    (h : (wsCollapse (x.dropWhile pws)).head? = some d) : pws d = false := by
  rcases hx : x.dropWhile pws with _ | ⟨e, r⟩
  · rw [hx, wsCollapse_nil] at h
    cases h
  · have he : pws e = false := head_dropWhile_false pws x (by rw [hx]; rfl)
    rw [hx, wsCollapse_cons_nonws he] at h
    injection h with h1
    rw [← h1]
    exact he

/-- `wsCollapse` commutes with stripping leading whitespace. -/
theorem dropWhile_pws_wsCollapse :
    ∀ t : Str, (wsCollapse t).dropWhile pws = wsCollapse (t.dropWhile pws) := by
  have main : ∀ (L : Nat) (t : Str), t.length ≤ L →
      (wsCollapse t).dropWhile pws = wsCollapse (t.dropWhile pws) := by
    intro L
    induction L with
    | zero =>
      intro t ht
      have : t = [] := List.length_eq_zero.mp (Nat.le_zero.mp ht)
      subst this
      rfl
    | succ L ih =>
      intro t ht
      cases t with
      | nil => rfl
      | cons c t' =>
        rw [List.length_cons, Nat.succ_le_succ_iff] at ht
        by_cases hc : pws c
        · rw [wsCollapse_cons_ws hc]
          rw [List.dropWhile_cons_of_pos (by decide : pws ' ' = true)]
          have hlen : (t'.dropWhile pws).length ≤ L :=
            le_trans (List.Sublist.length_le (List.dropWhile_sublist _)) ht
          rw [ih _ hlen]
          have hidem : (t'.dropWhile pws).dropWhile pws = t'.dropWhile pws := by
            rcases hy : t'.dropWhile pws with _ | ⟨d, r⟩
            · rfl
            · have hd : pws d = false :=
                head_dropWhile_false pws t' (by rw [hy]; rfl)
              rw [List.dropWhile_cons_of_neg (by rw [hd]; exact Bool.false_ne_true)]
          rw [hidem, List.dropWhile_cons_of_pos hc]
        · have hcf : pws c = false := by simpa using hc
          rw [wsCollapse_cons_nonws hcf, List.dropWhile_cons_of_neg hc,
            List.dropWhile_cons_of_neg hc, wsCollapse_cons_nonws hcf]
  exact fun t => main t.length t le_rfl

/-- Every whitespace run of `s` is a single space. -/
def wsSingle : Str → Bool
  | [] => true
  | c :: s =>
    (if pws c then
      decide (c = ' ') &&
        (match s with
         | [] => true
         | d :: _ => !(pws d))
     else true) && wsSingle s

theorem wsSingle_tail {c : Char} {s : Str} (h : wsSingle (c :: s) = true) :
    wsSingle s = true :=
  ((Bool.and_eq_true _ _).mp h).2

theorem wsSingle_cons_nonws {c : Char} {s : Str} (hc : pws c = false) :
    wsSingle (c :: s) = wsSingle s := by
  simp [wsSingle, hc]

theorem wsSingle_wsCollapse : ∀ s : Str, wsSingle (wsCollapse s) = true := by
  have main : ∀ (L : Nat) (s : Str), s.length ≤ L →
      wsSingle (wsCollapse s) = true := by
    intro L
    induction L with
    | zero =>
      intro s hs
      have : s = [] := List.length_eq_zero.mp (Nat.le_zero.mp hs)
      subst this
      rfl
    | succ L ih =>
      intro s hs
      cases s with
      | nil => rfl
      | cons c t =>
        rw [List.length_cons, Nat.succ_le_succ_iff] at hs
        by_cases hc : pws c
        · rw [wsCollapse_cons_ws hc]
          have hlen : (t.dropWhile pws).length ≤ L :=
            le_trans (List.Sublist.length_le (List.dropWhile_sublist _)) hs
          have htail := ih _ hlen
          show ((if pws ' ' then
              decide (' ' = ' ') &&
                (match wsCollapse (t.dropWhile pws) with
                 | [] => true
                 | d :: _ => !(pws d))
            else true) && wsSingle (wsCollapse (t.dropWhile pws))) = true
          rw [htail, Bool.and_true, if_pos (by decide : pws ' ' = true)]
          rcases hy : wsCollapse (t.dropWhile pws) with _ | ⟨d, r⟩
          · decide
          · have hd : pws d = false :=
              head_wsCollapse_dropWhile (x := t) (by rw [hy]; rfl)
            simp [hd]
        · have hcf : pws c = false := by simpa using hc
          rw [wsCollapse_cons_nonws hcf, wsSingle_cons_nonws hcf]
          exact ih t hs
  exact fun s => main s.length s le_rfl

theorem wsSingle_id : ∀ {s : Str}, wsSingle s = true → wsCollapse s = s := by
  have main : ∀ (L : Nat) (s : Str), s.length ≤ L → wsSingle s = true →
      wsCollapse s = s := by
    intro L
    induction L with
    | zero =>
      intro s hs _
      have : s = [] := List.length_eq_zero.mp (Nat.le_zero.mp hs)
      subst this
      rfl
    | succ L ih =>
      intro s hs h
      cases s with
      | nil => rfl
      | cons c t =>
        rw [List.length_cons, Nat.succ_le_succ_iff] at hs
        by_cases hc : pws c
        · have hcond := ((Bool.and_eq_true _ _).mp h).1
          rw [if_pos hc, Bool.and_eq_true] at hcond
          have hsp : c = ' ' := of_decide_eq_true hcond.1
          have hdw : t.dropWhile pws = t := by
            cases t with
            | nil => rfl
            | cons d r =>
              have hd : pws d = false := by
                have := hcond.2
                simpa using this
              exact List.dropWhile_cons_of_neg (by rw [hd]; exact Bool.false_ne_true)
          rw [wsCollapse_cons_ws hc, hdw, ih t hs (wsSingle_tail h), hsp]
        · have hcf : pws c = false := by simpa using hc
          rw [wsCollapse_cons_nonws hcf, ih t hs (wsSingle_tail h)]
  exact fun {s} => main s.length s le_rfl

theorem wsSingle_append_left :
    ∀ {u w : Str}, wsSingle (u ++ w) = true → wsSingle u = true := by
  intro u
  induction u with
  | nil => intro w _; rfl
  | cons c u' ih =>
    intro w h
    rw [List.cons_append] at h
    have htail := ih (wsSingle_tail h)
    have hcond := ((Bool.and_eq_true _ _).mp h).1
    cases u' with
    | nil =>
      show ((if pws c then decide (c = ' ') && true else true) && true) = true
      by_cases hc : pws c
      · rw [if_pos hc] at hcond ⊢
        rw [Bool.and_eq_true] at hcond
        simp [hcond.1]
      · rw [if_neg hc]
        rfl
    | cons d r =>
      show ((if pws c then decide (c = ' ') && !(pws d) else true) &&
        wsSingle (d :: r)) = true
      rw [Bool.and_eq_true]
      exact ⟨hcond, htail⟩

theorem wsSingle_dropWhile (p : Char → Bool) :
    ∀ {s : Str}, wsSingle s = true → wsSingle (s.dropWhile p) = true := by
  intro s
  induction s with
  | nil => intro h; exact h
  | cons c t ih =>
    intro h
    rw [List.dropWhile_cons]
    by_cases hp : p c
    · rw [if_pos hp]
      exact ih (wsSingle_tail h)
    · rw [if_neg hp]
      exact h

end Geo

namespace Geo

/-! ### The whitespace collapse creates no new matches -/

theorem wsRun_cons_ws {c : Char} (hc : pws c = true) (z : Str) :
    wsRun (c :: z) = wsRun z + 1 := by
  simp [wsRun, List.takeWhile_cons, hc]

theorem wsRun_cons_nonws {c : Char} (hc : pws c = false) (z : Str) :
    wsRun (c :: z) = 0 := by
  simp [wsRun, List.takeWhile_cons, hc]

theorem nonCommaRun_cons_ne {c : Char} (hc : ¬(c = ',')) (y : Str) :
    0 < nonCommaRun (c :: y) := by
  simp [nonCommaRun, frag, List.takeWhile_cons, hc]

theorem nonCommaRun_pos_head {x : Str} (h : 0 < nonCommaRun x) :
    ∃ e y, x = e :: y ∧ ¬(e = ',') := by
  cases x with
  | nil => simp [nonCommaRun, frag] at h
  | cons e y =>
    refine ⟨e, y, rfl, ?_⟩
    intro he
    subst he
    rw [show nonCommaRun (',' :: y) = 0 by
      simp [nonCommaRun, frag, List.takeWhile_cons]] at h
    exact Nat.lt_irrefl 0 h

theorem wsRun_wsCollapse_dropWhile (y : Str) :
    wsRun (wsCollapse (y.dropWhile pws)) = 0 := by
  rcases hy : wsCollapse (y.dropWhile pws) with _ | ⟨d, r⟩
  · rfl
  · have hd : pws d = false :=
      head_wsCollapse_dropWhile (x := y) (by rw [hy]; rfl)
    exact wsRun_cons_nonws hd r

theorem suffixSpec_wsCollapse {v : Str}
    (h : (suffixSpec (wsCollapse v)).isSome = true) :
    (suffixSpec v).isSome = true := by
  rcases v with _ | ⟨c, y⟩
  · exact absurd h (by decide)
  · by_cases hc : pws c
    · rw [wsCollapse_cons_ws hc] at h
      have hu1 : wsRun (' ' :: wsCollapse (y.dropWhile pws)) = 1 := by
        rw [wsRun_cons_ws (by decide), wsRun_wsCollapse_dropWhile]
      simp only [suffixSpec, hu1] at h
      have ht' : 0 < nonCommaRun ((' ' ::
          wsCollapse (y.dropWhile pws)).drop 1) := by
        by_cases hp : 0 < nonCommaRun ((' ' ::
            wsCollapse (y.dropWhile pws)).drop 1)
        · exact hp
        · rw [if_neg hp] at h
          exact absurd h (by decide)
      rw [if_pos ht'] at h
      rw [show (' ' :: wsCollapse (y.dropWhile pws)).drop 1 =
        wsCollapse (y.dropWhile pws) from rfl] at ht'
      obtain ⟨e, r, her, hene⟩ := nonCommaRun_pos_head ht'
      have hyne : 0 < nonCommaRun (y.dropWhile pws) := by
        rcases hdw : y.dropWhile pws with _ | ⟨d, r2⟩
        · rw [hdw, wsCollapse_nil] at her
          cases her
        · have hd : pws d = false :=
            head_dropWhile_false pws y (by rw [hdw]; rfl)
          rw [hdw, wsCollapse_cons_nonws hd] at her
          injection her with h1 _
          exact nonCommaRun_cons_ne (h1 ▸ hene) r2
      simp only [suffixSpec, wsRun_cons_ws hc]
      rw [show (c :: y).drop (wsRun y + 1) = y.drop (wsRun y) from rfl,
        drop_wsRun]
      rw [if_neg (show ¬(wsRun y + 1 = 0) by omega), if_pos hyne]
      rfl
    · have hcf : pws c = false := by simpa using hc
      rw [wsCollapse_cons_nonws hcf] at h
      rw [show suffixSpec (c :: wsCollapse y) = none by
        simp [suffixSpec, wsRun_cons_nonws hcf]] at h
      exact absurd h (by decide)

theorem stripCI_wsCollapse : ∀ (kw : Str), (∀ k ∈ kw, ¬(k = ' ')) →
    ∀ (u : Str) {r' : Str}, stripCI kw (wsCollapse u) = some r' →
      ∃ r, stripCI kw u = some r ∧ r' = wsCollapse r := by
  intro kw
  induction kw with
  | nil =>
    intro _ u r' h
    injection h with h1
    exact ⟨u, rfl, h1.symm⟩
  | cons k ks ih =>
    intro hkw u r' h
    cases u with
    | nil =>
      rw [wsCollapse_nil] at h
      simp [stripCI] at h
    | cons c y =>
      by_cases hc : pws c
      · rw [wsCollapse_cons_ws hc] at h
        have hk : ¬(k = ' ') := hkw k (List.mem_cons_self _ _)
        have hne : ¬(lowC ' ' = k) := fun hh => hk (by rw [← hh]; rfl)
        rw [show stripCI (k :: ks) (' ' ::
            wsCollapse (y.dropWhile pws)) = none by simp [stripCI, hne]] at h
        cases h
      · have hcf : pws c = false := by simpa using hc
        rw [wsCollapse_cons_nonws hcf] at h
        by_cases hl : lowC c = k
        · rw [show stripCI (k :: ks) (c :: wsCollapse y) =
              stripCI ks (wsCollapse y) by simp [stripCI, hl]] at h
          obtain ⟨r, hr1, hr2⟩ :=
            ih (fun x hx => hkw x (List.mem_cons_of_mem _ hx)) y h
          exact ⟨r, by simp [stripCI, hl, hr1], hr2⟩
        · rw [show stripCI (k :: ks) (c :: wsCollapse y) = none by
            simp [stripCI, hl]] at h
          cases h

theorem dotSuffix_wsCollapse {dot : Bool} {r : Str}
    (h : (dotSuffix dot (wsCollapse r)).isSome = true) :
    (dotSuffix dot r).isSome = true := by
  cases dot with
  | false => exact suffixSpec_wsCollapse h
  | true =>
    rcases r with _ | ⟨c, y⟩
    · exact h
    · by_cases hc : pws c
      · rw [wsCollapse_cons_ws hc, dotSuffix_not_dot (by decide)] at h
        have hcd : ¬(c = '.') := by
          intro hh
          rw [hh] at hc
          exact absurd hc (by decide)
        rw [dotSuffix_not_dot hcd]
        apply suffixSpec_wsCollapse
        rw [wsCollapse_cons_ws hc]
        exact h
      · have hcf : pws c = false := by simpa using hc
        rw [wsCollapse_cons_nonws hcf] at h
        by_cases hdot : c = '.'
        · subst hdot
          simp only [dotSuffix] at h ⊢
          rcases hs : suffixSpec (wsCollapse y) with _ | m
          · rw [hs] at h
            exact absurd h (by decide)
          · have hsy : (suffixSpec y).isSome = true :=
              suffixSpec_wsCollapse (v := y) (by rw [hs]; rfl)
            rcases hs2 : suffixSpec y with _ | m2
            · rw [hs2] at hsy
              exact absurd hsy (by decide)
            · rfl
        · rw [dotSuffix_not_dot hdot] at h ⊢
          apply suffixSpec_wsCollapse
          rw [wsCollapse_cons_nonws hcf]
          exact h

theorem matchKwTail_wsCollapse {kw : Str} {dot : Bool}
    (hkw : ∀ k ∈ kw, ¬(k = ' ')) {t : Str}
    (h : (matchKwTail kw dot (wsCollapse t)).isSome = true) :
    (matchKwTail kw dot t).isSome = true := by
  simp only [matchKwTail, drop_wsRun] at h ⊢
  rw [dropWhile_pws_wsCollapse] at h
  rcases hst : stripCI kw (wsCollapse (t.dropWhile pws)) with _ | rest'
  · rw [hst] at h
    simp at h
  · obtain ⟨rest, hr1, hr2⟩ := stripCI_wsCollapse kw hkw (t.dropWhile pws) hst
    simp only [hst, hr2] at h
    simp only [hr1]
    rcases hd : dotSuffix dot (wsCollapse rest) with _ | m
    · rw [hd] at h
      simp at h
    · have hds : (dotSuffix dot rest).isSome = true :=
        dotSuffix_wsCollapse (by rw [hd]; rfl)
      rcases hd2 : dotSuffix dot rest with _ | m2
      · rw [hd2] at hds
        simp at hds
      · rfl

end Geo

namespace Geo

theorem nonCommaRun_pos_wsCollapse {y : Str}
    (h : 0 < nonCommaRun (wsCollapse y)) : 0 < nonCommaRun y := by
  cases y with
  | nil => simpa [wsCollapse_nil] using h
  | cons c r =>
    by_cases hc : pws c
    · exact nonCommaRun_cons_ne (by simpa using pws_ne_comma c hc) r
    · have hcf : pws c = false := by simpa using hc
      rw [wsCollapse_cons_nonws hcf] at h
      obtain ⟨e, z, hez, hene⟩ := nonCommaRun_pos_head h
      injection hez with h1 _
      exact nonCommaRun_cons_ne (h1 ▸ hene) r

theorem wsRun_pos_wsCollapse {r : Str}
    (h : 0 < wsRun (wsCollapse r)) : 0 < wsRun r := by
  cases r with
  | nil => simpa [wsCollapse_nil] using h
  | cons c y =>
    by_cases hc : pws c
    · rw [wsRun_cons_ws hc]
      omega
    · have hcf : pws c = false := by simpa using hc
      rw [wsCollapse_cons_nonws hcf, wsRun_cons_nonws hcf] at h
      exact absurd h (by omega)

theorem hashAfter_wsCollapse {x : Str}
    (h : (hashAfter (wsCollapse x)).isSome = true) :
    (hashAfter x).isSome = true := by
  cases x with
  | nil => exact absurd h (by decide)
  | cons c y =>
    by_cases hc : pws c
    · rw [wsCollapse_cons_ws hc, hashAfter_ne (by decide)] at h
      exact absurd h (by decide)
    · have hcf : pws c = false := by simpa using hc
      rw [wsCollapse_cons_nonws hcf] at h
      by_cases hh : c = '#'
      · subst hh
        simp only [hashAfter] at h ⊢
        by_cases hp : 0 < nonCommaRun (wsCollapse y)
        · rw [if_pos (nonCommaRun_pos_wsCollapse hp)]
          rfl
        · rw [if_neg hp] at h
          exact absurd h (by decide)
      · rw [hashAfter_ne hh] at h
        exact absurd h (by decide)

theorem matchHashTail_wsCollapse {t : Str}
    (h : (matchHashTail (wsCollapse t)).isSome = true) :
    (matchHashTail t).isSome = true := by
  simp only [matchHashTail, drop_wsRun] at h ⊢
  rw [dropWhile_pws_wsCollapse] at h
  rcases hx : hashAfter (wsCollapse (t.dropWhile pws)) with _ | m
  · rw [hx] at h
    simp at h
  · have hs : (hashAfter (t.dropWhile pws)).isSome = true :=
      hashAfter_wsCollapse (by rw [hx]; rfl)
    rcases hx2 : hashAfter (t.dropWhile pws) with _ | m2
    · rw [hx2] at hs
      simp at hs
    · rfl

theorem stripOrd_space_first (b : Char) (r : Str) :
    stripOrd (' ' :: b :: r) = none := by
  have h1 : decide (lowC ' ' = 's') = false := by decide
  have h2 : decide (lowC ' ' = 'n') = false := by decide
  have h3 : decide (lowC ' ' = 'r') = false := by decide
  have h4 : decide (lowC ' ' = 't') = false := by decide
  simp [stripOrd, h1, h2, h3, h4]

theorem stripOrd_space_second (a : Char) (r : Str) :
    stripOrd (a :: ' ' :: r) = none := by
  have h1 : decide (lowC ' ' = 't') = false := by decide
  have h2 : decide (lowC ' ' = 'd') = false := by decide
  have h3 : decide (lowC ' ' = 'h') = false := by decide
  simp [stripOrd, h1, h2, h3]

theorem stripOrd_wsCollapse {u : Str} {rest' : Str}
    (h : stripOrd (wsCollapse u) = some rest') :
    ∃ rest, stripOrd u = some rest ∧ rest' = wsCollapse rest := by
  cases u with
  | nil => cases h
  | cons c y =>
    by_cases hc : pws c
    · rw [wsCollapse_cons_ws hc] at h
      rcases hz : wsCollapse (y.dropWhile pws) with _ | ⟨e, z⟩
      · rw [hz] at h
        cases h
      · rw [hz, stripOrd_space_first] at h
        cases h
    · have hcf : pws c = false := by simpa using hc
      rw [wsCollapse_cons_nonws hcf] at h
      cases y with
      | nil =>
        rw [wsCollapse_nil] at h
        cases h
      | cons d y2 =>
        by_cases hd : pws d
        · rw [wsCollapse_cons_ws hd, stripOrd_space_second] at h
          cases h
        · have hdf : pws d = false := by simpa using hd
          rw [wsCollapse_cons_nonws hdf] at h
          by_cases hcond : ((lowC c = 's' && lowC d = 't') ||
              (lowC c = 'n' && lowC d = 'd') ||
              (lowC c = 'r' && lowC d = 'd') ||
              (lowC c = 't' && lowC d = 'h')) = true
          · rw [show stripOrd (c :: d :: wsCollapse y2) =
                some (wsCollapse y2) by simp [stripOrd, hcond]] at h
            injection h with h1
            exact ⟨y2, by simp [stripOrd, hcond], h1.symm⟩
          · rw [show stripOrd (c :: d :: wsCollapse y2) = none by
              simp [stripOrd, hcond]] at h
            cases h

theorem pws_cases {c : Char} (h : pws c = true) :
    c = ' ' ∨ c = '\t' ∨ c = '\n' ∨ c = '\r' ∨ c = '\x0b' ∨ c = '\x0c' := by
  simp only [pws, Bool.or_eq_true, decide_eq_true_eq] at h
  tauto

theorem digit_not_pws : ∀ c, isDigitA c = true → pws c = false := by
  intro c h
  cases hp : pws c
  · rfl
  · rcases pws_cases hp with h1 | h1 | h1 | h1 | h1 | h1 <;>
      (subst h1; exact absurd h (by decide))

/-- A token of non-whitespace characters is untouched by the collapse,
and the collapse commutes with dropping it. -/
theorem wsCollapse_token {q : Char → Bool}
    (hq : ∀ c, q c = true → pws c = false) :
    ∀ X : Str, (wsCollapse X).takeWhile q = X.takeWhile q ∧
      (wsCollapse X).drop (X.takeWhile q).length =
        wsCollapse (X.drop (X.takeWhile q).length) := by
  have hqs : q ' ' = false := by
    cases hq' : q ' '
    · rfl
    · exact absurd (hq ' ' hq') (by decide)
  intro X
  induction X with
  | nil => exact ⟨rfl, rfl⟩
  | cons c y ih =>
    by_cases hc : pws c
    · have hqc : q c = false := by
        cases hqc : q c
        · rfl
        · rw [hq c hqc] at hc
          exact absurd hc (by simp)
      rw [wsCollapse_cons_ws hc]
      constructor
      · rw [List.takeWhile_cons_of_neg (by rw [hqs]; exact Bool.false_ne_true),
          List.takeWhile_cons_of_neg (by rw [hqc]; exact Bool.false_ne_true)]
      · rw [List.takeWhile_cons_of_neg (by rw [hqc]; exact Bool.false_ne_true)]
        rw [show (([] : Str)).length = 0 from rfl, List.drop_zero, List.drop_zero]
        rw [← wsCollapse_cons_ws hc]
    · have hcf : pws c = false := by simpa using hc
      rw [wsCollapse_cons_nonws hcf]
      by_cases hqc : q c = true
      · rw [List.takeWhile_cons_of_pos hqc, List.takeWhile_cons_of_pos hqc]
        constructor
        · rw [ih.1]
        · simp only [List.length_cons, List.drop_succ_cons]
          exact ih.2
      · rw [List.takeWhile_cons_of_neg hqc, List.takeWhile_cons_of_neg hqc]
        exact ⟨rfl, by
          rw [show (([] : Str)).length = 0 from rfl, List.drop_zero,
            List.drop_zero, wsCollapse_cons_nonws hcf]⟩

theorem ordFloorAt_wsCollapse {X : Str}
    (h : ordFloorAt (wsCollapse X) = true) : ordFloorAt X = true := by
  obtain ⟨htw, hdr⟩ := wsCollapse_token digit_not_pws X
  have hdig : digitRun (wsCollapse X) = digitRun X := by
    unfold digitRun
    rw [htw]
  simp only [ordFloorAt, hdig, Bool.and_eq_true] at h
  obtain ⟨hpos, hrest⟩ := h
  have hdr2 : (wsCollapse X).drop (digitRun X) =
      wsCollapse (X.drop (digitRun X)) := hdr
  rw [hdr2] at hrest
  rcases ho : stripOrd (wsCollapse (X.drop (digitRun X))) with _ | rest'
  · rw [ho] at hrest
    simp at hrest
  · rw [ho] at hrest
    obtain ⟨rest, hr1, hr2⟩ := stripOrd_wsCollapse ho
    subst hr2
    rw [Bool.and_eq_true] at hrest
    obtain ⟨hu, hf⟩ := hrest
    have hu' : 0 < wsRun rest :=
      wsRun_pos_wsCollapse (of_decide_eq_true hu)
    have hdw : (wsCollapse rest).drop (wsRun (wsCollapse rest)) =
        wsCollapse (rest.dropWhile pws) := by
      rw [drop_wsRun, dropWhile_pws_wsCollapse]
    rw [hdw] at hf
    rcases hsf : stripCI ['f', 'l', 'o', 'o', 'r']
        (wsCollapse (rest.dropWhile pws)) with _ | z
    · rw [hsf] at hf
      simp at hf
    · obtain ⟨z0, hz1, _⟩ :=
        stripCI_wsCollapse ['f', 'l', 'o', 'o', 'r'] (by decide)
          (rest.dropWhile pws) hsf
    -- assemble the unfolded goal
      simp only [ordFloorAt, hpos, Bool.true_and, hr1]
      rw [Bool.and_eq_true]
      refine ⟨by simpa using hu', ?_⟩
      rw [drop_wsRun, hz1]
      rfl

theorem matchFloorOrdTail_wsCollapse {t : Str}
    (h : (matchFloorOrdTail (wsCollapse t)).isSome = true) :
    (matchFloorOrdTail t).isSome = true := by
  rw [matchFloorOrdTail_isSome] at h ⊢
  rw [dropWhile_pws_wsCollapse] at h
  exact ordFloorAt_wsCollapse h

theorem matchCCTail_isSome_iff {x : Str} :
    (matchCCTail x).isSome = true ↔ (x.dropWhile pws).head? = some ',' := by
  simp only [matchCCTail, drop_wsRun]
  by_cases h : (x.dropWhile pws).head? = some ',' <;> simp [h]

theorem matchCCTail_wsCollapse {t : Str}
    (h : (matchCCTail (wsCollapse t)).isSome = true) :
    (matchCCTail t).isSome = true := by
  rw [matchCCTail_isSome_iff] at h ⊢
  rw [dropWhile_pws_wsCollapse] at h
  rcases hdw : t.dropWhile pws with _ | ⟨d, r⟩
  · rw [hdw, wsCollapse_nil] at h
    cases h
  · have hd : pws d = false := head_dropWhile_false pws t (by rw [hdw]; rfl)
    rw [hdw, wsCollapse_cons_nonws hd] at h
    simpa using h

/-- The whitespace collapse creates no match of a matcher that transfers
back along it. -/
theorem noMatch_wsCollapse_pres {T : Str → Option Nat}
    (htr : ∀ t, (T (wsCollapse t)).isSome = true → (T t).isSome = true) :
    ∀ s : Str, noMatchM (commaM T) s = true →
      noMatchM (commaM T) (wsCollapse s) = true := by
  have main : ∀ (L : Nat) (s : Str), s.length ≤ L →
      noMatchM (commaM T) s = true →
      noMatchM (commaM T) (wsCollapse s) = true := by
    intro L
    induction L with
    | zero =>
      intro s hs h
      have : s = [] := List.length_eq_zero.mp (Nat.le_zero.mp hs)
      subst this
      exact h
    | succ L ih =>
      intro s hs h
      cases s with
      | nil => exact h
      | cons c t =>
        rw [List.length_cons, Nat.succ_le_succ_iff] at hs
        by_cases hc : pws c
        · rw [wsCollapse_cons_ws hc]
          refine noMatchM_cons.mpr ⟨by rw [commaM_ne (by decide)], ?_⟩
          have hlen : (t.dropWhile pws).length ≤ L :=
            le_trans (List.Sublist.length_le (List.dropWhile_sublist _)) hs
          exact ih _ hlen (noMatchM_dropWhile pws (noMatchM_tail h))
        · have hcf : pws c = false := by simpa using hc
          rw [wsCollapse_cons_nonws hcf]
          by_cases hcc : c = ','
          · subst hcc
            refine noMatchM_cons.mpr ⟨?_, ih t hs (noMatchM_tail h)⟩
            rw [commaM_comma]
            have hhead : T t = none := by
              have := (noMatchM_cons.mp h).1
              rwa [commaM_comma] at this
            rcases hT : T (wsCollapse t) with _ | n
            · rfl
            · have := htr t (by rw [hT]; rfl)
              rw [hhead] at this
              exact absurd this (by decide)
          · refine noMatchM_cons.mpr
              ⟨by rw [commaM_ne hcc], ih t hs (noMatchM_tail h)⟩
  exact fun s => main s.length s le_rfl

end Geo

namespace Geo

/-! ### Appending to the right cannot destroy a match -/

theorem wsRun_le_append (x w : Str) : wsRun x ≤ wsRun (x ++ w) := by
  induction x with
  | nil => exact Nat.zero_le _
  | cons c y ih =>
    by_cases hc : pws c
    · rw [wsRun_cons_ws hc, List.cons_append, wsRun_cons_ws hc]
      omega
    · have hcf : pws c = false := by simpa using hc
      rw [wsRun_cons_nonws hcf]
      exact Nat.zero_le _

theorem takeWhile_append_stop {p : Char → Bool} :
    ∀ (x : Str) {c : Char} {r : Str}, x.dropWhile p = c :: r →
      ∀ w : Str, (x ++ w).takeWhile p = x.takeWhile p := by
  intro x
  induction x with
  | nil => intro c r h; cases h
  | cons a y ih =>
    intro c r h w
    by_cases ha : p a
    · rw [List.dropWhile_cons_of_pos ha] at h
      rw [List.cons_append, List.takeWhile_cons_of_pos ha,
        List.takeWhile_cons_of_pos ha, ih h]
    · rw [List.cons_append, List.takeWhile_cons_of_neg ha,
        List.takeWhile_cons_of_neg ha]

theorem dropWhile_append_stop {p : Char → Bool} :
    ∀ (x : Str) {c : Char} {r : Str}, x.dropWhile p = c :: r →
      ∀ w : Str, (x ++ w).dropWhile p = x.dropWhile p ++ w := by
  intro x
  induction x with
  | nil => intro c r h; cases h
  | cons a y ih =>
    intro c r h w
    by_cases ha : p a
    · rw [List.dropWhile_cons_of_pos ha] at h
      rw [List.cons_append, List.dropWhile_cons_of_pos ha, ih h,
        List.dropWhile_cons_of_pos ha]
    · rw [List.cons_append, List.dropWhile_cons_of_neg ha,
        List.dropWhile_cons_of_neg ha, List.cons_append]

theorem wsRun_append_stop {x : Str} {c : Char} {r : Str}
    (h : x.dropWhile pws = c :: r) (w : Str) :
    wsRun (x ++ w) = wsRun x :=
  congrArg List.length (takeWhile_append_stop x h w)

theorem stripCI_append : ∀ (kw x : Str) {r : Str}, stripCI kw x = some r →
    ∀ w, stripCI kw (x ++ w) = some (r ++ w) := by
  intro kw
  induction kw with
  | nil =>
    intro x r h w
    injection h with h1
    subst h1
    rfl
  | cons k ks ih =>
    intro x r h w
    cases x with
    | nil => cases h
    | cons c cs =>
      by_cases hl : lowC c = k
      · rw [show stripCI (k :: ks) (c :: cs) = stripCI ks cs by
          simp [stripCI, hl]] at h
        rw [List.cons_append,
          show stripCI (k :: ks) (c :: (cs ++ w)) = stripCI ks (cs ++ w) by
            simp [stripCI, hl]]
        exact ih cs h w
      · rw [show stripCI (k :: ks) (c :: cs) = none by simp [stripCI, hl]] at h
        cases h

theorem suffixSpec_append {x : Str} (h : (suffixSpec x).isSome = true)
    (w : Str) : (suffixSpec (x ++ w)).isSome = true := by
  simp only [suffixSpec] at h ⊢
  by_cases hu : wsRun x = 0
  · rw [if_pos hu] at h
    exact absurd h (by decide)
  · rw [if_neg hu] at h
    rcases hdw : x.dropWhile pws with _ | ⟨c, r⟩
    · have ht : nonCommaRun (x.drop (wsRun x)) = 0 := by
        rw [drop_wsRun, hdw]
        rfl
      rw [ht, if_neg (show ¬(0 < 0) by omega)] at h
      have h2 : 2 ≤ wsRun x := by
        by_cases h2 : 2 ≤ wsRun x
        · exact h2
        · rw [if_neg h2] at h
          exact absurd h (by decide)
      have hu' : 2 ≤ wsRun (x ++ w) := le_trans h2 (wsRun_le_append x w)
      rw [if_neg (show ¬(wsRun (x ++ w) = 0) by omega)]
      by_cases ht' : 0 < nonCommaRun ((x ++ w).drop (wsRun (x ++ w)))
      · rw [if_pos ht']
        rfl
      · rw [if_neg ht', if_pos hu']
        rfl
    · have hu' : wsRun (x ++ w) = wsRun x := wsRun_append_stop hdw w
      have hdrop : (x ++ w).drop (wsRun (x ++ w)) = (c :: r) ++ w := by
        rw [drop_wsRun, dropWhile_append_stop x hdw w, hdw]
      rw [if_neg (by rw [hu']; exact hu), hdrop]
      by_cases ht : 0 < nonCommaRun (x.drop (wsRun x))
      · have hc : ¬(c = ',') := by
          rw [drop_wsRun, hdw] at ht
          obtain ⟨e, z, hez, hne⟩ := nonCommaRun_pos_head ht
          injection hez with h1 _
          exact h1 ▸ hne
        rw [List.cons_append, if_pos (nonCommaRun_cons_ne hc (r ++ w))]
        rfl
      · rw [if_neg ht] at h
        have h2 : 2 ≤ wsRun x := by
          by_cases h2 : 2 ≤ wsRun x
          · exact h2
          · rw [if_neg h2] at h
            exact absurd h (by decide)
        by_cases ht' : 0 < nonCommaRun ((c :: r) ++ w)
        · rw [if_pos ht']
          rfl
        · rw [if_neg ht', if_pos (show 2 ≤ wsRun (x ++ w) by omega)]
          rfl

theorem dotSuffix_false (x : Str) : dotSuffix false x = suffixSpec x := by
  cases x with
  | nil => rfl
  | cons c y => rfl

theorem dotSuffix_dot (r : Str) : dotSuffix true ('.' :: r) =
    match suffixSpec r with
    | some m => some (1 + m)
    | none => none := rfl

theorem dotSuffix_append {dot : Bool} {x : Str}
    (h : (dotSuffix dot x).isSome = true) (w : Str) :
    (dotSuffix dot (x ++ w)).isSome = true := by
  cases dot with
  | false =>
    rw [dotSuffix_false] at h ⊢
    exact suffixSpec_append h w
  | true =>
    cases x with
    | nil => exact absurd h (by decide)
    | cons c y =>
      by_cases hc : c = '.'
      · subst hc
        rw [dotSuffix_dot] at h
        rw [List.cons_append, dotSuffix_dot]
        rcases hs : suffixSpec y with _ | m
        · rw [hs] at h
          exact absurd h (by decide)
        · have := suffixSpec_append (x := y) (by rw [hs]; rfl) w
          rcases hs2 : suffixSpec (y ++ w) with _ | m2
          · rw [hs2] at this
            exact absurd this (by decide)
          · rfl
      · rw [dotSuffix_not_dot hc] at h
        rw [List.cons_append, dotSuffix_not_dot hc]
        exact suffixSpec_append (x := c :: y) h w

theorem matchKwTail_append {kw : Str} {dot : Bool} (hkwne : ¬(kw = []))
    {x : Str} (h : (matchKwTail kw dot x).isSome = true) (w : Str) :
    (matchKwTail kw dot (x ++ w)).isSome = true := by
  simp only [matchKwTail, drop_wsRun] at h ⊢
  rcases hst : stripCI kw (x.dropWhile pws) with _ | rest
  · rw [hst] at h
    simp at h
  · obtain ⟨c, r, hdw⟩ : ∃ c r, x.dropWhile pws = c :: r := by
      rcases hx : x.dropWhile pws with _ | ⟨c, r⟩
      · rw [hx] at hst
        rcases kw with _ | ⟨k, ks⟩
        · exact absurd rfl hkwne
        · cases hst
      · exact ⟨c, r, rfl⟩
    rw [dropWhile_append_stop x hdw w]
    simp only [stripCI_append kw (x.dropWhile pws) hst w]
    simp only [hst] at h
    rcases hd : dotSuffix dot rest with _ | m
    · rw [hd] at h
      simp at h
    · have := dotSuffix_append (x := rest) (by rw [hd]; rfl) w
      rcases hd2 : dotSuffix dot (rest ++ w) with _ | m2
      · rw [hd2] at this
        exact absurd this (by decide)
      · rfl

theorem hashAfter_append {x : Str} (h : (hashAfter x).isSome = true)
    (w : Str) : (hashAfter (x ++ w)).isSome = true := by
  cases x with
  | nil => exact absurd h (by decide)
  | cons c r =>
    by_cases hc : c = '#'
    · subst hc
      simp only [hashAfter] at h
      rw [List.cons_append]
      simp only [hashAfter]
      by_cases ht : 0 < nonCommaRun r
      · obtain ⟨e, z, hez, hne⟩ := nonCommaRun_pos_head ht
        subst hez
        rw [List.cons_append, if_pos (nonCommaRun_cons_ne hne (z ++ w))]
        rfl
      · rw [if_neg ht] at h
        exact absurd h (by decide)
    · rw [hashAfter_ne hc] at h
      exact absurd h (by decide)

theorem matchHashTail_append {x : Str} (h : (matchHashTail x).isSome = true)
    (w : Str) : (matchHashTail (x ++ w)).isSome = true := by
  simp only [matchHashTail, drop_wsRun] at h ⊢
  rcases hh : hashAfter (x.dropWhile pws) with _ | m
  · rw [hh] at h
    simp at h
  · obtain ⟨c, r, hdw⟩ : ∃ c r, x.dropWhile pws = c :: r := by
      rcases hx : x.dropWhile pws with _ | ⟨c, r⟩
      · rw [hx] at hh
        cases hh
      · exact ⟨c, r, rfl⟩
    rw [dropWhile_append_stop x hdw w]
    have := hashAfter_append (x := x.dropWhile pws) (by rw [hh]; rfl) w
    rcases hh2 : hashAfter (x.dropWhile pws ++ w) with _ | m2
    · rw [hh2] at this
      exact absurd this (by decide)
    · rfl

theorem stripOrd_append : ∀ {y : Str} {rest : Str},
    stripOrd y = some rest → ∀ w, stripOrd (y ++ w) = some (rest ++ w) := by
  intro y rest h w
  match y with
  | [] => cases h
  | [a] => cases h
  | a :: b :: z =>
    by_cases hcond : ((lowC a = 's' && lowC b = 't') ||
        (lowC a = 'n' && lowC b = 'd') ||
        (lowC a = 'r' && lowC b = 'd') ||
        (lowC a = 't' && lowC b = 'h')) = true
    · rw [show stripOrd (a :: b :: z) = some z by simp [stripOrd, hcond]] at h
      injection h with h1
      subst h1
      rw [List.cons_append, List.cons_append]
      simp [stripOrd, hcond]
    · rw [show stripOrd (a :: b :: z) = none by simp [stripOrd, hcond]] at h
      cases h

theorem drop_append_le : ∀ (x : Str) (n : Nat), n ≤ x.length →
    ∀ w : Str, (x ++ w).drop n = x.drop n ++ w := by
  intro x
  induction x with
  | nil =>
    intro n hn w
    have : n = 0 := Nat.le_zero.mp hn
    subst this
    rfl
  | cons c y ih =>
    intro n hn w
    cases n with
    | zero => rfl
    | succ m =>
      rw [List.length_cons, Nat.succ_le_succ_iff] at hn
      rw [List.cons_append, List.drop_succ_cons, List.drop_succ_cons]
      exact ih m hn w

theorem ordFloorAt_append {X : Str} (h : ordFloorAt X = true) (w : Str) :
    ordFloorAt (X ++ w) = true := by
  simp only [ordFloorAt, Bool.and_eq_true] at h
  obtain ⟨hpos, hrest⟩ := h
  rcases ho : stripOrd (X.drop (digitRun X)) with _ | rest
  · rw [ho] at hrest
    simp at hrest
  · simp only [ho] at hrest
    -- the digit run is followed by a non-digit (the ordinal letter), so it
    -- is stable under appending
    have hXdw : X.drop (digitRun X) = X.dropWhile isDigitA := by
      unfold digitRun
      exact drop_length_takeWhile isDigitA X
    obtain ⟨c, r, hdw⟩ : ∃ c r, X.dropWhile isDigitA = c :: r := by
      rcases hx : X.dropWhile isDigitA with _ | ⟨c, r⟩
      · rw [hXdw, hx] at ho
        cases ho
      · exact ⟨c, r, rfl⟩
    have hdig : digitRun (X ++ w) = digitRun X := by
      unfold digitRun
      rw [takeWhile_append_stop X hdw w]
    have hdrop : (X ++ w).drop (digitRun X) = X.drop (digitRun X) ++ w :=
      drop_append_le X (digitRun X)
        ((List.takeWhile_sublist _).length_le) w
    rw [Bool.and_eq_true] at hrest
    obtain ⟨hu, hf⟩ := hrest
    obtain ⟨d, z, hdwr⟩ : ∃ d z, rest.dropWhile pws = d :: z := by
      rcases hx : rest.dropWhile pws with _ | ⟨d, z⟩
      · rw [drop_wsRun, hx] at hf
        simp [stripCI] at hf
      · exact ⟨d, z, rfl⟩
    have hu' : wsRun (rest ++ w) = wsRun rest := wsRun_append_stop hdwr w
    simp only [ordFloorAt, hdig, hpos, Bool.true_and, hdrop,
      stripOrd_append ho w]
    rw [Bool.and_eq_true]
    constructor
    · rw [hu']
      exact hu
    · rw [drop_wsRun, dropWhile_append_stop rest hdwr w]
      rcases hf2 : stripCI ['f', 'l', 'o', 'o', 'r']
          (rest.dropWhile pws) with _ | q
      · rw [drop_wsRun, hf2] at hf
        simp at hf
      · rw [stripCI_append _ _ hf2 w]
        rfl

theorem matchFloorOrdTail_append {x : Str}
    (h : (matchFloorOrdTail x).isSome = true) (w : Str) :
    (matchFloorOrdTail (x ++ w)).isSome = true := by
  rw [matchFloorOrdTail_isSome] at h ⊢
  obtain ⟨c, r, hdw⟩ : ∃ c r, x.dropWhile pws = c :: r := by
    rcases hx : x.dropWhile pws with _ | ⟨c, r⟩
    · rw [hx] at h
      exact absurd h (by decide)
    · exact ⟨c, r, rfl⟩
  rw [dropWhile_append_stop x hdw w]
  exact ordFloorAt_append h w

theorem matchCCTail_append {x : Str} (h : (matchCCTail x).isSome = true)
    (w : Str) : (matchCCTail (x ++ w)).isSome = true := by
  rw [matchCCTail_isSome_iff] at h ⊢
  rcases hx : x.dropWhile pws with _ | ⟨c, r⟩
  · rw [hx] at h
    cases h
  · rw [hx] at h
    rw [dropWhile_append_stop x hx w, hx]
    simpa using h

/-- Removing a right part of the string creates no match of a matcher that
survives re-appending it. -/
theorem noMatchM_append_left {T : Str → Option Nat} {w : Str}
    (htr : ∀ v : Str, (T v).isSome = true → (T (v ++ w)).isSome = true) :
    ∀ x : Str, noMatchM (commaM T) (x ++ w) = true →
      noMatchM (commaM T) x = true := by
  intro x
  induction x with
  | nil => intro _; rfl
  | cons c t ih =>
    intro h
    rw [List.cons_append] at h
    refine noMatchM_cons.mpr ⟨?_, ih (noMatchM_tail h)⟩
    by_cases hc : c = ','
    · subst hc
      rw [commaM_comma]
      have h0 := (noMatchM_cons.mp h).1
      rw [commaM_comma] at h0
      rcases hT : T t with _ | n
      · rfl
      · have := htr t (by rw [hT]; rfl)
        rw [h0] at this
        exact absurd this (by decide)
    · rw [commaM_ne hc]

end Geo

namespace Geo

/-! ### Stripping leading and trailing whitespace -/

theorem dropWhile_idem (p : Char → Bool) (l : Str) :
    (l.dropWhile p).dropWhile p = l.dropWhile p := by
  rcases h : l.dropWhile p with _ | ⟨c, t⟩
  · rfl
  · have hc : p c = false := head_dropWhile_false p l (by rw [h]; rfl)
    rw [List.dropWhile_cons_of_neg (by rw [hc]; exact Bool.false_ne_true)]

/-- `strip` removes the whitespace prefix and, after that, some (whitespace)
suffix. -/
theorem pstrip_decomp (s : Str) : ∃ w : Str, s.dropWhile pws = pstrip s ++ w := by
  refine ⟨((s.dropWhile pws).reverse.takeWhile pws).reverse, ?_⟩
  have h1 : (s.dropWhile pws).reverse =
      (s.dropWhile pws).reverse.takeWhile pws ++
        (s.dropWhile pws).reverse.dropWhile pws :=
    (List.takeWhile_append_dropWhile pws (s.dropWhile pws).reverse).symm
  have h2 := congrArg List.reverse h1
  rw [List.reverse_reverse, List.reverse_append] at h2
  exact h2

theorem head_pstrip_nonws {s : Str} {c : Char} {t : Str}
    (h : pstrip s = c :: t) : pws c = false := by
  have hlast : ((s.dropWhile pws).reverse.dropWhile pws).getLast? = some c := by
    rw [← List.head?_reverse,
      show ((s.dropWhile pws).reverse.dropWhile pws).reverse = pstrip s
        from rfl, h]
    rfl
  have hXne : (s.dropWhile pws).reverse.dropWhile pws ≠ [] := by
    intro hX
    rw [hX] at hlast
    cases hlast
  have hz : ((s.dropWhile pws).reverse).getLast? = some c := by
    conv_lhs =>
      rw [← List.takeWhile_append_dropWhile pws (s.dropWhile pws).reverse]
    rw [List.getLast?_append_of_ne_nil _ hXne]
    exact hlast
  rw [List.getLast?_reverse] at hz
  exact head_dropWhile_false pws s hz

theorem pstrip_idem (s : Str) : pstrip (pstrip s) = pstrip s := by
  have h1 : (pstrip s).dropWhile pws = pstrip s := by
    rcases h : pstrip s with _ | ⟨c, t⟩
    · rfl
    · rw [List.dropWhile_cons_of_neg
        (by rw [head_pstrip_nonws h]; exact Bool.false_ne_true)]
  have h2 : (pstrip s).reverse = (s.dropWhile pws).reverse.dropWhile pws :=
    List.reverse_reverse _
  calc pstrip (pstrip s)
      = (((pstrip s).dropWhile pws).reverse.dropWhile pws).reverse := rfl
    _ = ((pstrip s).reverse.dropWhile pws).reverse := by rw [h1]
    _ = (((s.dropWhile pws).reverse.dropWhile pws).dropWhile pws).reverse := by
          rw [h2]
    _ = ((s.dropWhile pws).reverse.dropWhile pws).reverse := by
          rw [dropWhile_idem]
    _ = pstrip s := rfl

theorem wsSingle_pstrip {s : Str} (h : wsSingle s = true) :
    wsSingle (pstrip s) = true := by
  obtain ⟨w, hw⟩ := pstrip_decomp s
  have h1 : wsSingle (s.dropWhile pws) = true := wsSingle_dropWhile pws h
  rw [hw] at h1
  exact wsSingle_append_left h1

/-- Stripping the ends creates no match of a matcher that survives
re-appending the removed suffix. -/
theorem noMatch_pstrip {T : Str → Option Nat}
    (htr : ∀ (v w : Str), (T v).isSome = true → (T (v ++ w)).isSome = true)
    {s : Str} (h : noMatchM (commaM T) s = true) :
    noMatchM (commaM T) (pstrip s) = true := by
  obtain ⟨w, hw⟩ := pstrip_decomp s
  have h1 : noMatchM (commaM T) (s.dropWhile pws) = true :=
    noMatchM_dropWhile pws h
  rw [hw] at h1
  exact noMatchM_append_left (fun v hv => htr v w hv) _ h1

end Geo

namespace Geo

/-! ### Idempotence of `simplify_address` on well-behaved addresses -/

theorem bSuite : BoundedT suiteT := by
  intro s n h
  exact bounded_kwTail h

theorem bSte : BoundedT steT := by
  intro s n h
  exact bounded_kwTail h

theorem bFloor : BoundedT floorT := by
  intro s n h
  exact bounded_kwTail h

theorem bRoom : BoundedT roomT := by
  intro s n h
  exact bounded_kwTail h

theorem bApt : BoundedT aptT := by
  intro s n h
  exact bounded_kwTail h

theorem bUnit : BoundedT unitT := by
  intro s n h
  exact bounded_kwTail h

theorem bHash : BoundedT matchHashTail := by
  intro s n h
  exact bounded_hashTail h

theorem fragSuite : ∀ s, suiteT (frag s) = suiteT s :=
  matchKwTail_frag ['s', 'u', 'i', 't', 'e'] false (by decide)

theorem fragSte : ∀ s, steT (frag s) = steT s :=
  matchKwTail_frag ['s', 't', 'e'] true (by decide)

theorem fragFloor : ∀ s, floorT (frag s) = floorT s :=
  matchKwTail_frag ['f', 'l', 'o', 'o', 'r'] false (by decide)

theorem fragRoom : ∀ s, roomT (frag s) = roomT s :=
  matchKwTail_frag ['r', 'o', 'o', 'm'] false (by decide)

theorem fragApt : ∀ s, aptT (frag s) = aptT s :=
  matchKwTail_frag ['a', 'p', 't'] true (by decide)

theorem fragUnit : ∀ s, unitT (frag s) = unitT s :=
  matchKwTail_frag ['u', 'n', 'i', 't'] false (by decide)

theorem wSuite : ∀ t, (suiteT (wsCollapse t)).isSome = true →
    (suiteT t).isSome = true := fun _ h => matchKwTail_wsCollapse (by decide) h

theorem wSte : ∀ t, (steT (wsCollapse t)).isSome = true →
    (steT t).isSome = true := fun _ h => matchKwTail_wsCollapse (by decide) h

theorem wFloor : ∀ t, (floorT (wsCollapse t)).isSome = true →
    (floorT t).isSome = true := fun _ h => matchKwTail_wsCollapse (by decide) h

theorem wRoom : ∀ t, (roomT (wsCollapse t)).isSome = true →
    (roomT t).isSome = true := fun _ h => matchKwTail_wsCollapse (by decide) h

theorem wApt : ∀ t, (aptT (wsCollapse t)).isSome = true →
    (aptT t).isSome = true := fun _ h => matchKwTail_wsCollapse (by decide) h

theorem wUnit : ∀ t, (unitT (wsCollapse t)).isSome = true →
    (unitT t).isSome = true := fun _ h => matchKwTail_wsCollapse (by decide) h

theorem aSuite : ∀ (v w : Str), (suiteT v).isSome = true →
    (suiteT (v ++ w)).isSome = true :=
  fun _ w h => matchKwTail_append (by decide) h w

theorem aSte : ∀ (v w : Str), (steT v).isSome = true →
    (steT (v ++ w)).isSome = true :=
  fun _ w h => matchKwTail_append (by decide) h w

theorem aFloor : ∀ (v w : Str), (floorT v).isSome = true →
    (floorT (v ++ w)).isSome = true :=
  fun _ w h => matchKwTail_append (by decide) h w

theorem aRoom : ∀ (v w : Str), (roomT v).isSome = true →
    (roomT (v ++ w)).isSome = true :=
  fun _ w h => matchKwTail_append (by decide) h w

theorem aApt : ∀ (v w : Str), (aptT v).isSome = true →
    (aptT (v ++ w)).isSome = true :=
  fun _ w h => matchKwTail_append (by decide) h w

theorem aUnit : ∀ (v w : Str), (unitT v).isSome = true →
    (unitT (v ++ w)).isSome = true :=
  fun _ w h => matchKwTail_append (by decide) h w

/-- After the eight substitution passes, none of the patterns of
`simplify_address` (the eight unit-designator patterns and the
comma-pair collapse) matches anywhere in the string. -/
def SimpFixed (s : Str) : Prop :=
  noMatchM (commaM suiteT) s = true ∧
  noMatchM (commaM steT) s = true ∧
  noMatchM (commaM floorT) s = true ∧
  noMatchM (commaM matchFloorOrdTail) s = true ∧
  noMatchM (commaM roomT) s = true ∧
  noMatchM (commaM matchHashTail) s = true ∧
  noMatchM (commaM aptT) s = true ∧
  noMatchM (commaM unitT) s = true ∧
  noWsPair s = true

theorem applyPats_SimpFixed {a : Str} (hw : noWsPair a = true)
    (hf : noOrdFloor a = true) : SimpFixed (applyPats a) := by
  set s1 := pass suiteT a with hs1
  set s2 := pass steT s1 with hs2
  set s3 := pass floorT s2 with hs3
  set s4 := pass matchFloorOrdTail s3 with hs4
  set s5 := pass roomT s4 with hs5
  set s6 := pass matchHashTail s5 with hs6
  set s7 := pass aptT s6 with hs7
  have happ : applyPats a = pass unitT s7 := rfl
  have hf3 : noOrdFloor s3 = true :=
    noOrdFloor_pass bFloor _ (noOrdFloor_pass bSte _
      (noOrdFloor_pass bSuite _ hf))
  have hid4 : s4 = s3 := by
    rw [hs4]
    exact subAll_of_noMatch [] (noMatch_floorOrd_of_noOrdFloor hf3)
  have hf8 : noOrdFloor (applyPats a) = true := by
    rw [happ]
    refine noOrdFloor_pass bUnit _ (noOrdFloor_pass bApt _
      (noOrdFloor_pass bHash _ (noOrdFloor_pass bRoom _ ?_)))
    rw [hid4]
    exact hf3
  have hw8 : noWsPair (applyPats a) = true := by
    rw [happ]
    refine noWsPair_pass bUnit _ (noWsPair_pass bApt _ (noWsPair_pass bHash _
      (noWsPair_pass bRoom _ ?_)))
    rw [hid4]
    exact noWsPair_pass bFloor _ (noWsPair_pass bSte _
      (noWsPair_pass bSuite _ hw))
  have hnSuite : noMatchM (commaM suiteT) (applyPats a) = true := by
    rw [happ]
    refine noMatch_pass_pres bUnit fragSuite _ (noMatch_pass_pres bApt
      fragSuite _ (noMatch_pass_pres bHash fragSuite _
        (noMatch_pass_pres bRoom fragSuite _ ?_)))
    rw [hid4]
    exact noMatch_pass_pres bFloor fragSuite _ (noMatch_pass_pres bSte
      fragSuite _ (noMatch_pass_self bSuite fragSuite a))
  have hnSte : noMatchM (commaM steT) (applyPats a) = true := by
    rw [happ]
    refine noMatch_pass_pres bUnit fragSte _ (noMatch_pass_pres bApt
      fragSte _ (noMatch_pass_pres bHash fragSte _
        (noMatch_pass_pres bRoom fragSte _ ?_)))
    rw [hid4]
    exact noMatch_pass_pres bFloor fragSte _ (noMatch_pass_self bSte fragSte s1)
  have hnFloor : noMatchM (commaM floorT) (applyPats a) = true := by
    rw [happ]
    refine noMatch_pass_pres bUnit fragFloor _ (noMatch_pass_pres bApt
      fragFloor _ (noMatch_pass_pres bHash fragFloor _
        (noMatch_pass_pres bRoom fragFloor _ ?_)))
    rw [hid4]
    exact noMatch_pass_self bFloor fragFloor s2
  have hnFloorOrd : noMatchM (commaM matchFloorOrdTail) (applyPats a) = true :=
    noMatch_floorOrd_of_noOrdFloor hf8
  have hnRoom : noMatchM (commaM roomT) (applyPats a) = true := by
    rw [happ]
    refine noMatch_pass_pres bUnit fragRoom _ (noMatch_pass_pres bApt
      fragRoom _ (noMatch_pass_pres bHash fragRoom _ ?_))
    exact noMatch_pass_self bRoom fragRoom s4
  have hnHash : noMatchM (commaM matchHashTail) (applyPats a) = true := by
    rw [happ]
    refine noMatch_pass_pres bUnit matchHashTail_frag _
      (noMatch_pass_pres bApt matchHashTail_frag _ ?_)
    exact noMatch_pass_self bHash matchHashTail_frag s5
  have hnApt : noMatchM (commaM aptT) (applyPats a) = true := by
    rw [happ]
    refine noMatch_pass_pres bUnit fragApt _ ?_
    exact noMatch_pass_self bApt fragApt s6
  have hnUnit : noMatchM (commaM unitT) (applyPats a) = true := by
    rw [happ]
    exact noMatch_pass_self bUnit fragUnit s7
  exact ⟨hnSuite, hnSte, hnFloor, hnFloorOrd, hnRoom, hnHash, hnApt,
    hnUnit, hw8⟩

theorem SimpFixed_applyPats_id {s : Str} (h : SimpFixed s) :
    applyPats s = s := by
  obtain ⟨h1, h2, h3, h4, h5, h6, h7, h8, _⟩ := h
  show pass unitT (pass aptT (pass matchHashTail (pass roomT
    (pass matchFloorOrdTail (pass floorT (pass steT (pass suiteT s))))))) = s
  rw [show pass suiteT s = s from subAll_of_noMatch [] h1,
    show pass steT s = s from subAll_of_noMatch [] h2,
    show pass floorT s = s from subAll_of_noMatch [] h3,
    show pass matchFloorOrdTail s = s from subAll_of_noMatch [] h4,
    show pass roomT s = s from subAll_of_noMatch [] h5,
    show pass matchHashTail s = s from subAll_of_noMatch [] h6,
    show pass aptT s = s from subAll_of_noMatch [] h7,
    show pass unitT s = s from subAll_of_noMatch [] h8]

theorem SimpFixed_commaCollapse_id {s : Str} (h : SimpFixed s) :
    commaCollapse s = s :=
  subAll_of_noMatch [','] h.2.2.2.2.2.2.2.2

theorem SimpFixed_wsCollapse {s : Str} (h : SimpFixed s) :
    SimpFixed (wsCollapse s) := by
  obtain ⟨h1, h2, h3, h4, h5, h6, h7, h8, h9⟩ := h
  exact ⟨noMatch_wsCollapse_pres wSuite s h1,
    noMatch_wsCollapse_pres wSte s h2,
    noMatch_wsCollapse_pres wFloor s h3,
    noMatch_wsCollapse_pres (T := matchFloorOrdTail)
      (fun _ h => matchFloorOrdTail_wsCollapse h) s h4,
    noMatch_wsCollapse_pres wRoom s h5,
    noMatch_wsCollapse_pres (T := matchHashTail)
      (fun _ h => matchHashTail_wsCollapse h) s h6,
    noMatch_wsCollapse_pres wApt s h7,
    noMatch_wsCollapse_pres wUnit s h8,
    noMatch_wsCollapse_pres (T := matchCCTail)
      (fun _ h => matchCCTail_wsCollapse h) s h9⟩

theorem SimpFixed_pstrip {s : Str} (h : SimpFixed s) :
    SimpFixed (pstrip s) := by
  obtain ⟨h1, h2, h3, h4, h5, h6, h7, h8, h9⟩ := h
  exact ⟨noMatch_pstrip aSuite h1,
    noMatch_pstrip aSte h2,
    noMatch_pstrip aFloor h3,
    noMatch_pstrip (fun _ w h => matchFloorOrdTail_append h w) h4,
    noMatch_pstrip aRoom h5,
    noMatch_pstrip (fun _ w h => matchHashTail_append h w) h6,
    noMatch_pstrip aApt h7,
    noMatch_pstrip aUnit h8,
    noMatch_pstrip (fun _ w h => matchCCTail_append h w) h9⟩

theorem simplifyL_idem {a : Str} (hw : noWsPair a = true)
    (hf : noOrdFloor a = true) : simplifyL (simplifyL a) = simplifyL a := by
  have h1 : SimpFixed (applyPats a) := applyPats_SimpFixed hw hf
  have h2 : commaCollapse (applyPats a) = applyPats a :=
    SimpFixed_commaCollapse_id h1
  have hb : simplifyL a = pstrip (wsCollapse (applyPats a)) := by
    unfold simplifyL
    rw [h2]
  have h4 : SimpFixed (pstrip (wsCollapse (applyPats a))) :=
    SimpFixed_pstrip (SimpFixed_wsCollapse h1)
  rw [hb]
  show pstrip (wsCollapse (commaCollapse (applyPats
    (pstrip (wsCollapse (applyPats a)))))) = pstrip (wsCollapse (applyPats a))
  rw [SimpFixed_applyPats_id h4, SimpFixed_commaCollapse_id h4]
  have hws : wsSingle (pstrip (wsCollapse (applyPats a))) = true :=
    wsSingle_pstrip (wsSingle_wsCollapse _)
  rw [wsSingle_id hws]
  exact pstrip_idem _

end Geo

namespace Geo

/-- C2 (counterexample): `simplify_address` is not idempotent on all
address strings: one application sends ",,," to ",," (the comma-pair
pattern consumes through its second comma and does not rescan it), and a
second application sends ",," to ",", so simplifying twice differs from
simplifying once. -/
theorem simplify_address_not_idempotent :
    simplify_address (simplify_address ",,,") ≠ simplify_address ",,," := by
  decide

/-- C2 (amended): `simplify_address` is idempotent on every address in
which no two commas are separated by only whitespace and no digit run is
immediately followed by an ordinal suffix (st/nd/rd/th), whitespace and
the word "floor" (case-insensitively): on such addresses simplifying
twice equals simplifying once. -/
theorem simplify_address_idempotent (a : String)
    (hw : noWsPair a.data = true) (hf : noOrdFloor a.data = true) :
    simplify_address (simplify_address a) = simplify_address a :=
  congrArg String.mk (simplifyL_idem hw hf)

/-- The amended C2 holds at a typical address with a unit designator. -/
theorem simplify_address_idempotent_witness :
    noWsPair ("123 Main Street, Suite 100, Springfield, IL 62704").data
        = true ∧
    noOrdFloor ("123 Main Street, Suite 100, Springfield, IL 62704").data
        = true ∧
    simplify_address (simplify_address
        "123 Main Street, Suite 100, Springfield, IL 62704") =
      simplify_address "123 Main Street, Suite 100, Springfield, IL 62704" :=
  ⟨by decide, by decide,
    simplify_address_idempotent "123 Main Street, Suite 100, Springfield, IL 62704"
      (by decide) (by decide)⟩

end Geo
